import Mathlib

/-!
# Verification of the Synnefo quotaholder and Pithos backend specification

Shallow embedding, in Lean 4, of the parts of the Synnefo code base that the
specification talks about:

* `astakos/quotaholder_app/callpoint.py` — the commission engine
  (`issue_commission`, `resolve_pending_commissions`, `_merge_same_keys`,
  `_log_provision`);
* `synnefo/quotas/__init__.py` — the Cyclades reconciler
  (`resolve_pending_commissions`);
* `pithos/backends/modular.py` — the storage façade (`HashMap.hash`,
  `update_object_hashmap`, `_put_version_duplicate`, `_copy_object`,
  `_can_write_object`, `_delete_object`, `_update_available`,
  `_list_objects`).

Database tables are modelled as association lists, dictionaries as
association lists in insertion order, Django querysets as list filters, and
raised exceptions as `Except`/sum results.  The semantics of the
`astakos.quotaholder_app.commission` module (`Import`, `Release`,
`Operations.prepare/revert`, `finalize`, `undo`) and of the Pithos
permission index are not part of the provided sources; those definitions are
modelled from the specification and are marked as such in their doc comments.
-/

namespace Synnefo

namespace Quotaholder

/-- A holding key `(holder, source, resource)`. -/
abbrev HKey := String × String × String

/-- One `Holding` row: `(limit, usage_min, usage_max)`
(`astakos/quotaholder_app/models.py`). -/
structure Holding where
  limit : Int
  usage_min : Int
  usage_max : Int
deriving DecidableEq, Repr

/-- Lookup in a dictionary of holdings keyed by `(holder, source, resource)`,
as built by `_get_holdings_for_update`. -/
def hfind (hs : List (HKey × Holding)) (k : HKey) : Option Holding :=
  match hs with
  | [] => none
  | (k', v) :: rest => if k' = k then some v else hfind rest k

/-- Store a (mutated) holding back under its key. -/
def hset (hs : List (HKey × Holding)) (k : HKey) (v : Holding) :
    List (HKey × Holding) :=
  match hs with
  | [] => [(k, v)]
  | (k', v') :: rest =>
    if k' = k then (k, v) :: rest else (k', v') :: hset rest k v

/-- `_partition_by(lambda t: t[0], provisions, lambda t: t[1])`: group the
quantities of a provision list by key.  A Python dict is modelled as an
association list in insertion order of the keys. -/
def addToGroup (d : List (HKey × List Int)) (k : HKey) (q : Int) :
    List (HKey × List Int) :=
  match d with
  | [] => [(k, [q])]
  | (k', l) :: rest =>
    if k' = k then (k', l ++ [q]) :: rest else (k', l) :: addToGroup rest k q

/-- The `_partition_by` dictionary used by `_merge_same_keys`. -/
def partition_by (provisions : List (HKey × Int)) : List (HKey × List Int) :=
  provisions.foldl (fun d kq => addToGroup d kq.1 kq.2) []

/-- `_merge_same_keys` (`callpoint.py`): merge provisions with identical keys
by summing their quantities. -/
def merge_same_keys (provisions : List (HKey × Int)) : List (HKey × Int) :=
  (partition_by provisions).map (fun kl => (kl.1, kl.2.sum))

/-- The errors `issue_commission` can raise: `NoHoldingError` and the quota
check failure, each carrying the offending provision
(`_mkProvision(key, quantity)`). -/
inductive QHError where
  | noHolding (provision : HKey × Int)
  | quotaLimit (provision : HKey × Int)
deriving DecidableEq, Repr

/-- Modelled from the spec: the `astakos.quotaholder_app.commission` module is
not under the provided sources.  §4.6: for an import (`q ≥ 0`),
`Import.prepare` checks `usage_max + q ≤ limit` unless `force`, and sets
`usage_max += q`. -/
def prepareImport (h : Holding) (q : Int) (force : Bool) : Option Holding :=
  if force || h.usage_max + q ≤ h.limit then
    some { h with usage_max := h.usage_max + q }
  else
    none

/-- Modelled from the spec: §4.6, for a release of `a = -q > 0`,
`Release.prepare` checks `usage_min - a ≥ 0` and sets `usage_min -= a`
(the spec phrases this as `usage_min + q ≥ 0` / `usage_min += q` for the
negative delta `q`). -/
def prepareRelease (h : Holding) (a : Int) : Option Holding :=
  if 0 ≤ h.usage_min - a then
    some { h with usage_min := h.usage_min - a }
  else
    none

/-- The two operation kinds of the commission module. -/
inductive OpKind where
  | imp
  | rel
deriving DecidableEq, Repr

/-- One prepared operation recorded by `Operations.prepare`, so that
`Operations.revert` can undo it.  `amount` is the non-negative quantity
passed to `prepare`. -/
structure PreparedOp where
  kind : OpKind
  key : HKey
  amount : Int
deriving DecidableEq, Repr

/-- Modelled from the spec: undoing one prepared operation. Undoing an import
reserve lowers `usage_max` by the reserved amount; undoing a release restores
`usage_min`. -/
def undoOp (hs : List (HKey × Holding)) (op : PreparedOp) :
    List (HKey × Holding) :=
  match hfind hs op.key with
  | none => hs
  | some h =>
    match op.kind with
    | .imp => hset hs op.key { h with usage_max := h.usage_max - op.amount }
    | .rel => hset hs op.key { h with usage_min := h.usage_min + op.amount }

/-- Modelled from the spec: `Operations.revert` undoes all prior prepares of
the commission (most recent first; the recorded list is kept most recent
first). -/
def revertOps (ops : List PreparedOp) (hs : List (HKey × Holding)) :
    List (HKey × Holding) :=
  ops.foldl undoOp hs

/-- Outcome of the provision loop inside `issue_commission`: either every
provision was prepared, or a check failed mid-way (with the holdings and the
operation log as they stand at the failure point). -/
inductive IssueOutcome where
  | ok (holdings : List (HKey × Holding))
      (provisions_to_create : List (HKey × Int))
  | fail (e : QHError) (holdings : List (HKey × Holding))
      (ops : List PreparedOp)
deriving DecidableEq, Repr

/-- The `for key, quantity in provisions` loop of `issue_commission`:
look up the target holding (`NoHoldingError` if absent), prepare an import
for `quantity >= 0`, otherwise prepare a release of `-quantity` (never
forced). -/
def issue_loop (force : Bool) (holdings : List (HKey × Holding))
    (ops : List PreparedOp) (created : List (HKey × Int)) :
    List (HKey × Int) → IssueOutcome
  | [] => .ok holdings created
  | (key, quantity) :: rest =>
    match hfind holdings key with
    | none => .fail (.noHolding (key, quantity)) holdings ops
    | some th =>
      if 0 ≤ quantity then
        match prepareImport th quantity force with
        | none => .fail (.quotaLimit (key, quantity)) holdings ops
        | some th' =>
          issue_loop force (hset holdings key th')
            (⟨.imp, key, quantity⟩ :: ops) (created ++ [(key, quantity)]) rest
      else
        match prepareRelease th (-quantity) with
        | none => .fail (.quotaLimit (key, quantity)) holdings ops
        | some th' =>
          issue_loop force (hset holdings key th')
            (⟨.rel, key, -quantity⟩ :: ops) (created ++ [(key, quantity)]) rest

/-- One `Commission` row (`serial`, `clientkey`, `name`; the issue datetime is
not modelled). -/
structure Commission where
  serial : Nat
  clientkey : String
  name : String
deriving DecidableEq, Repr

/-- One `Provision` row. -/
structure ProvisionRow where
  serial : Nat
  holder : String
  source : String
  resource : String
  quantity : Int
deriving DecidableEq, Repr

/-- The holding key of a `Provision` row (`Provision.holding_key`). -/
def ProvisionRow.holding_key (p : ProvisionRow) : HKey :=
  (p.holder, p.source, p.resource)

/-- One `ProvisionLog` row (the two datetime columns are not modelled). -/
structure ProvisionLogRow where
  serial : Nat
  name : String
  holder : String
  source : String
  resource : String
  limit : Int
  usage_min : Int
  usage_max : Int
  delta_quantity : Int
  reason : String
deriving DecidableEq, Repr

/-- The quotaholder database: `Holding`, `Commission`, `Provision` and
`ProvisionLog` tables, plus the auto-increment commission serial. -/
structure QHState where
  holdings : List (HKey × Holding)
  commissions : List Commission
  provisions : List ProvisionRow
  provisionLog : List ProvisionLogRow
  serialCounter : Nat
deriving DecidableEq, Repr

/-- `issue_commission` (`callpoint.py`): merge provisions with identical
keys, prepare every provision against the holdings, revert all prepares and
re-raise on any check failure, and otherwise create the `Commission` and its
`Provision` rows and return the fresh serial. -/
def issue_commission (st : QHState) (clientkey : String)
    (provisions : List (HKey × Int)) (name : String) (force : Bool) :
    QHState × Except QHError Nat :=
  let merged := merge_same_keys provisions
  match issue_loop force st.holdings [] [] merged with
  | .fail e holdings ops =>
    ({ st with holdings := revertOps ops holdings }, .error e)
  | .ok holdings created =>
    let serial := st.serialCounter
    ({ holdings := holdings,
       commissions := st.commissions ++ [⟨serial, clientkey, name⟩],
       provisions := st.provisions ++ created.map
         (fun kq => ⟨serial, kq.1.1, kq.1.2.1, kq.1.2.2, kq.2⟩),
       provisionLog := st.provisionLog,
       serialCounter := serial + 1 },
     .ok serial)

/-- Whether the check of a single provision fails against the given holdings:
no holding under its key, or the prepare check fails. -/
def provisionCheckFails (holdings : List (HKey × Holding)) (force : Bool)
    (kq : HKey × Int) : Bool :=
  match hfind holdings kq.1 with
  | none => true
  | some h =>
    if 0 ≤ kq.2 then (prepareImport h kq.2 force).isNone
    else (prepareRelease h (-kq.2)).isNone

/-- `actions.get(serial)` on the actions dictionary (serial → accept flag). -/
def aget (acts : List (Nat × Bool)) (s : Nat) : Option Bool :=
  match acts with
  | [] => none
  | (s', b) :: rest => if s' = s then some b else aget rest s

/-- `actions.pop(serial)`: remove the entry for a serial. -/
def apop (acts : List (Nat × Bool)) (s : Nat) : List (Nat × Bool) :=
  match acts with
  | [] => []
  | (s', b) :: rest => if s' = s then rest else (s', b) :: apop rest s

/-- `actions[serial] = value`: update the entry in place, or append a new
one. -/
def aset (acts : List (Nat × Bool)) (s : Nat) (v : Bool) :
    List (Nat × Bool) :=
  match acts with
  | [] => [(s, v)]
  | (s', b) :: rest =>
    if s' = s then (s, v) :: rest else (s', b) :: aset rest s v

/-- `dict.fromkeys(accept_set, True)`, modelled in first-occurrence order. -/
def fromkeys (accept_set : List Nat) : List (Nat × Bool) :=
  accept_set.foldl (fun d s => if (aget d s).isSome then d else d ++ [(s, true)])
    []

/-- The `for serial in reject_set` preprocessing loop of
`resolve_pending_commissions`: a serial whose action is currently `True`
is popped and recorded as conflicting, any other serial is marked for
rejection. -/
def process_reject (reject_set : List Nat) (acts : List (Nat × Bool))
    (conflicting : List Nat) : List (Nat × Bool) × List Nat :=
  match reject_set with
  | [] => (acts, conflicting)
  | serial :: rest =>
    if aget acts serial = some true then
      process_reject rest (apop acts serial) (conflicting ++ [serial])
    else
      process_reject rest (aset acts serial false) conflicting

/-- Modelled from the spec: `finalize(Import, h, q)` — accepting an import
commits the reservation, `usage_min += q` (§4.6). -/
def finalizeImport (h : Holding) (q : Int) : Holding :=
  { h with usage_min := h.usage_min + q }

/-- Modelled from the spec: `finalize(Release, h, a)` — accepting a release
completes it, `usage_max -= a` (§4.6). -/
def finalizeRelease (h : Holding) (a : Int) : Holding :=
  { h with usage_max := h.usage_max - a }

/-- The per-provision holding update of the resolution loop:
`action = finalize if accept else undo`, applied to `Import` for
`quantity >= 0` and to `Release` of `-quantity` otherwise.  The undo cases
are modelled from the spec (§4.6): reject+import `usage_max -= q`,
reject+release `usage_min += a`. -/
def applyResolve (accept : Bool) (h : Holding) (quantity : Int) : Holding :=
  if accept then
    if 0 ≤ quantity then finalizeImport h quantity
    else finalizeRelease h (-quantity)
  else
    if 0 ≤ quantity then { h with usage_max := h.usage_max - quantity }
    else { h with usage_min := h.usage_min + (-quantity) }

/-- `CorruptedError("Corrupted provision")`: a provision whose holding row is
missing. -/
inductive ResolveErr where
  | corrupted
deriving DecidableEq, Repr

/-- The `for pv in ps` loop of `resolve_pending_commissions` for one
commission: update the holding of every provision and append a
`ProvisionLog` row per provision (`_log_provision`, logging the holding
values after the update and the reason `'ACCEPT:'/'REJECT:' +
reason[-121:]`). -/
def resolve_provisions (accept : Bool) (reason : String)
    (commission : Commission) :
    List ProvisionRow → List (HKey × Holding) → List ProvisionLogRow →
    Except ResolveErr (List (HKey × Holding) × List ProvisionLogRow)
  | [], hs, lg => .ok (hs, lg)
  | pv :: rest, hs, lg =>
    match hfind hs pv.holding_key with
    | none => .error .corrupted
    | some h =>
      let h' := applyResolve accept h pv.quantity
      let comm_reason :=
        (if accept then "ACCEPT:" else "REJECT:") ++ reason.takeRight 121
      let row : ProvisionLogRow :=
        { serial := commission.serial, name := commission.name,
          holder := pv.holder, source := pv.source, resource := pv.resource,
          limit := h'.limit, usage_min := h'.usage_min,
          usage_max := h'.usage_max, delta_quantity := pv.quantity,
          reason := comm_reason }
      resolve_provisions accept reason commission rest
        (hset hs pv.holding_key h') (lg ++ [row])

/-- `_get_commissions_for_update`-style lookup of one commission row by
client key and serial. -/
def cfind (cs : List Commission) (clientkey : String) (serial : Nat) :
    Option Commission :=
  cs.find? (fun c => c.clientkey = clientkey && c.serial = serial)

/-- Accumulator of the main resolution loop: the four tables plus the three
result lists. -/
structure ResolveAcc where
  holdings : List (HKey × Holding)
  commissions : List Commission
  provisions : List ProvisionRow
  provisionLog : List ProvisionLogRow
  accepted : List Nat
  rejected : List Nat
  notFound : List Nat
deriving DecidableEq, Repr

/-- The `for serial, accept in actions.iteritems()` loop: unknown serials go
to `notFound`; otherwise the serial is accepted or rejected, its provisions
are applied to the holdings, logged and deleted, and the commission row is
deleted. -/
def resolve_actions (clientkey : String) (reason : String) :
    List (Nat × Bool) → ResolveAcc → Except ResolveErr ResolveAcc
  | [], acc => .ok acc
  | (serial, accept) :: rest, acc =>
    match cfind acc.commissions clientkey serial with
    | none =>
      resolve_actions clientkey reason rest
        { acc with notFound := acc.notFound ++ [serial] }
    | some commission =>
      let provs := acc.provisions.filter (fun p => p.serial = serial)
      match resolve_provisions accept reason commission provs acc.holdings
          acc.provisionLog with
      | .error e => .error e
      | .ok (hs, lg) =>
        resolve_actions clientkey reason rest
          { holdings := hs,
            commissions := acc.commissions.filter
              (fun c => c.serial ≠ serial),
            provisions := acc.provisions.filter
              (fun p => p.serial ≠ serial),
            provisionLog := lg,
            accepted := acc.accepted ++ (if accept then [serial] else []),
            rejected := acc.rejected ++ (if accept then [] else [serial]),
            notFound := acc.notFound }

/-- `resolve_pending_commissions` (`callpoint.py`).  The preprocessing puts
serials found in both sets into `conflicting`; the main loop resolves the
remaining actions.  A `CorruptedError` aborts (and rolls back) the whole
transaction, leaving the state unchanged. -/
def resolve_pending_commissions (st : QHState) (clientkey : String)
    (accept_set reject_set : List Nat) (reason : String) :
    QHState × Except ResolveErr (List Nat × List Nat × List Nat × List Nat) :=
  let pr := process_reject reject_set (fromkeys accept_set) []
  match resolve_actions clientkey reason pr.1
      ⟨st.holdings, st.commissions, st.provisions, st.provisionLog,
       [], [], []⟩ with
  | .error e => (st, .error e)
  | .ok acc =>
    ({ st with holdings := acc.holdings, commissions := acc.commissions,
               provisions := acc.provisions,
               provisionLog := acc.provisionLog },
     .ok (acc.accepted, acc.rejected, acc.notFound, pr.2))

end Quotaholder

namespace Cyclades

/-- One row of the Cyclades `QuotaHolderSerial` table
(`synnefo/quotas/models.py`; only the columns the reconciler reads). -/
structure QuotaHolderSerial where
  serial : Nat
  pending : Bool
  accept : Bool
deriving DecidableEq, Repr

/-- `qh_pending.sort(); min_ = qh_pending[0]`: the smallest remote pending
serial. -/
def listMin (l : List Nat) : Nat :=
  match l with
  | [] => 0
  | x :: xs => xs.foldl min x

/-- `resolve_pending_commissions` (`synnefo/quotas/__init__.py`): classify
the remote pending serials into an accept list (recorded locally with
`pending=False, accept=True` and serial at least the smallest pending one)
and a reject list (everything else). -/
def resolve_pending_commissions (localTable : List QuotaHolderSerial)
    (qh_pending : List Nat) : List Nat × List Nat :=
  if qh_pending = [] then ([], [])
  else
    let min_ := listMin qh_pending
    let serials := localTable.filter
      (fun r => decide (min_ ≤ r.serial) && r.pending = false)
    let accepted := (serials.filter (fun r => r.accept)).map (·.serial)
    let accepted := accepted.filter (fun s => s ∈ qh_pending)
    let rejected := qh_pending.dedup.filter (fun s => s ∉ accepted)
    (accepted, rejected)

end Cyclades

namespace PithosHashMap

/-- A block hash, modelled as its byte string. -/
abbrev Digest := List Nat

/-- The `s = 2; while s < len(h): s = s * 2` loop of `HashMap.hash`
(`pithos/backends/modular.py`), computing the padded length starting from
`s`.  (The `s = 0` guard only serves termination; the method always starts
at `s = 2`.) -/
def hash_pow_loop (n : Nat) (s : Nat) : Nat :=
  if h : 0 < s ∧ s < n then hash_pow_loop n (2 * s) else s
termination_by n - s
decreasing_by
  omega

/-- One level of the folding loop:
`h = [self._hash_raw(h[x] + h[x + 1]) for x in range(0, len(h), 2)]`.
The method only reaches this loop with `len(h)` a power of two, so the
odd-leftover case never occurs. -/
def fold_pairs (H : Digest → Digest) : List Digest → List Digest
  | a :: b :: rest => H (a ++ b) :: fold_pairs H rest
  | l => l

/-- Each folding level halves the number of hashes (rounding up). -/
theorem fold_pairs_length (H : Digest → Digest) :
    ∀ l : List Digest, (fold_pairs H l).length = (l.length + 1) / 2
  | [] => by simp [fold_pairs]
  | [a] => by simp [fold_pairs]
  | a :: b :: rest => by
    simp only [fold_pairs, List.length_cons, fold_pairs_length H rest]
    omega

/-- The `while len(h) > 1` folding loop of `HashMap.hash`. -/
def hash_levels (H : Digest → Digest) (h : List Digest) : List Digest :=
  if hl : 1 < h.length then
    hash_levels H (fold_pairs H h)
  else
    h
termination_by h.length
decreasing_by
  rw [fold_pairs_length H h]
  omega

/-- `HashMap.hash` (`pithos/backends/modular.py`): the root hash of an
ordered sequence of block hashes, with the block-hash combiner `H`
(`_hash_raw`) abstracted. -/
def hashmap_hash (H : Digest → Digest) (l : List Digest) : Digest :=
  if l.length = 0 then H []
  else if l.length = 1 then l.headI
  else
    let s := hash_pow_loop l.length 2
    let padded := l ++ List.replicate (s - l.length)
      (List.replicate l.headI.length 0)
    (hash_levels H padded).headI

end PithosHashMap

namespace Listing

/-- The observable side effects of a listing: consultations of the
permission index, of the container node, and the node-tree listing query. -/
inductive LEvent where
  | permissionLookup
  | containerLookup
  | objectListing
deriving DecidableEq, Repr

/-- The exceptions a listing can raise. -/
inductive LErr where
  | notAllowed
  | itemNotExists
deriving DecidableEq, Repr

/-- The collaborators `_list_objects` consults, with their answers fixed up
front: the permission index (`access_list_paths`, `access_list_shared`,
`public_list`), the container node (`node_lookup`) and the node-tree listing
(`latest_version_list` rows, by object name). -/
structure LEnv where
  access_list_paths : List String
  access_list_shared : List String
  public_list : List String
  container : Option Nat
  props : List String
  public_props : List String
deriving DecidableEq, Repr

/-- Python truthiness of the `until` parameter: `None` and `0` are falsy. -/
def until_truthy : Option Int → Bool
  | none => false
  | some t => decide (t ≠ 0)

/-- `_list_object_permissions` (`modular.py`): for a foreign account, ask the
permission index for the paths the user may access and raise `NotAllowed`
when there are none; for the own account, collect shared and/or public paths
(sortedness of the collected set is not modelled). -/
def list_object_permissions (env : LEnv) (user account : String)
    (shared public : Bool) : Except LErr (List String) × List LEvent :=
  if user ≠ account then
    ((if env.access_list_paths = [] then .error .notAllowed
      else .ok env.access_list_paths), [.permissionLookup])
  else
    let allowed := (if shared then env.access_list_shared else []) ++
      (if public then env.public_list else [])
    (.ok allowed.dedup,
     (if shared then [.permissionLookup] else []) ++
       (if public then [.permissionLookup] else []))

/-- `_list_public_object_properties`: public paths from the permission index,
then their version rows. -/
def list_public_object_properties (env : LEnv) (user account : String) :
    Except LErr (List String) × List LEvent :=
  match list_object_permissions env user account false true with
  | (.error e, ev) => (.error e, ev)
  | (.ok _, ev) => (.ok env.public_props, ev ++ [.objectListing])

/-- `_list_limits` (`modular.py`): pagination start is one past the marker
when present; the page size defaults to, and is capped at, 10000. -/
def list_limits (listing : List String) (marker : Option String)
    (limit : Nat) : Nat × Nat :=
  let start := match marker with
    | none => 0
    | some m =>
      match listing.indexOf? m with
      | none => 0
      | some i => i + 1
  let limit := if limit = 0 || 10000 < limit then 10000 else limit
  (start, limit)

/-- `_list_objects` (`modular.py`): the cross-account point-in-time check,
then the shared/public branch structure, then pagination. -/
def _list_objects (env : LEnv) (user account : String) (shared public : Bool)
    (until_ : Option Int) (marker : Option String) (limit : Nat) :
    Except LErr (List String) × List LEvent :=
  if user ≠ account ∧ until_truthy until_ = true then
    (.error .notAllowed, [])
  else
    let branch : Except LErr (List String) × List LEvent :=
      if shared && public then
        match list_object_permissions env user account true false with
        | (.error e, ev) => (.error e, ev)
        | (.ok shared_paths, ev) =>
          if shared_paths ≠ [] then
            match env.container with
            | none => (.error .itemNotExists, ev ++ [.containerLookup])
            | some _ =>
              match list_public_object_properties env user account with
              | (.error e, ev2) =>
                (.error e, ev ++ [.containerLookup, .objectListing] ++ ev2)
              | (.ok pub, ev2) =>
                (.ok ((env.props ++ pub).dedup.mergeSort
                    (fun a b => decide (a ≤ b))),
                 ev ++ [.containerLookup, .objectListing] ++ ev2)
          else
            match list_public_object_properties env user account with
            | (.error e, ev2) => (.error e, ev ++ ev2)
            | (.ok pub, ev2) =>
              (.ok (pub.dedup.mergeSort (fun a b => decide (a ≤ b))),
               ev ++ ev2)
      else if public then
        list_public_object_properties env user account
      else
        match list_object_permissions env user account shared false with
        | (.error e, ev) => (.error e, ev)
        | (.ok allowed, ev) =>
          if shared && allowed = [] then (.ok [], ev)
          else
            match env.container with
            | none => (.error .itemNotExists, ev ++ [.containerLookup])
            | some _ =>
              (.ok env.props, ev ++ [.containerLookup, .objectListing])
    match branch with
    | (.error e, ev) => (.error e, ev)
    | (.ok objects, ev) =>
      let (start, lim) := list_limits objects marker limit
      (.ok ((objects.drop start).take lim), ev)

end Listing

namespace UpdateHashmap

/-- The mutating side effects of `update_object_hashmap`:
`put_block` writes, version creation, metadata writes and commission issue
(the latter three happen inside `_update_object_hash`), and the final
`map_put`. -/
inductive UEvent where
  | blockPut
  | versionCreated
  | metadataWritten
  | commissionIssued
  | mapPut
deriving DecidableEq, Repr

/-- The failures of `update_object_hashmap`: the Archipelago guard, the
missing-blocks `IndexError` carrying `ie.data`, and any failure of
`_update_object_hash` (whose transaction rolls back, so it leaves no
effect). -/
inductive UErr where
  | illegalOperation
  | missingBlocks (missing : List String)
  | updateFailed
deriving DecidableEq, Repr

/-- The collaborators of `update_object_hashmap`: the hash returned by
`put_block('')`, the root hash of a map (computed in full by
`PithosHashMap.hashmap_hash`; kept abstract here), and the outcome of
`_update_object_hash`.  Hex encoding of hashes is a bijection and is
elided. -/
structure UEnv where
  empty_block_hash : String
  root_hash : List String → String
  update_ok : Bool
  dest_version : Nat

/-- `update_object_hashmap` (`modular.py`): reject Archipelago hashes,
replace an empty object's hashmap by the stored empty block, fail with the
list of missing block hashes if any referenced block is absent
(`block_search`, modelled from the spec §4.1 as the referenced hashes not
present in the store), and otherwise create the new version.  Returns the
result, the effect trace, and the block store contents. -/
def update_object_hashmap (env : UEnv) (store : List String) (size : Int)
    (hashmap : List String) :
    Except UErr (Nat × String) × List UEvent × List String :=
  if hashmap.any (fun h => h.startsWith "archip_") then
    (.error .illegalOperation, [], store)
  else
    let (hm, store1, ev1) :=
      if size = 0 then
        ([env.empty_block_hash], store ++ [env.empty_block_hash],
         [UEvent.blockPut])
      else (hashmap, store, [])
    let missing := hm.filter (fun h => h ∉ store1)
    if missing ≠ [] then
      (.error (.missingBlocks missing), ev1, store1)
    else
      let hash := env.root_hash hm
      if env.update_ok then
        (.ok (env.dest_version, hash),
         ev1 ++ [.versionCreated, .metadataWritten, .commissionIssued,
                 .mapPut],
         store1)
      else
        (.error .updateFailed, ev1, store1)

end UpdateHashmap

namespace Versions

/-- One version row (`serial, uuid, hash, size, type, checksum, available,
map_check_timestamp`); the modifier and mtime are not modelled.  UUIDs are
modelled as naturals drawn from a fresh-uuid counter. -/
structure Version where
  serial : Nat
  uuid : Nat
  hash : Option String
  size : Int
  vtype : String
  checksum : String
  available : Bool
  map_check_timestamp : Option Int
deriving DecidableEq, Repr

/-- Association-list lookup on node ids. -/
def nfind (l : List (Nat × Version)) (n : Nat) : Option Version :=
  match l with
  | [] => none
  | (n', v) :: rest => if n' = n then some v else nfind rest n

/-- Set the entry of a node id (update in place or append). -/
def nset (l : List (Nat × Version)) (n : Nat) (v : Version) :
    List (Nat × Version) :=
  match l with
  | [] => [(n, v)]
  | (n', v') :: rest =>
    if n' = n then (n, v) :: rest else (n', v') :: nset rest n v

/-- Delete the entry of a node id. -/
def ndel (l : List (Nat × Version)) (n : Nat) : List (Nat × Version) :=
  match l with
  | [] => []
  | (n', v') :: rest => if n' = n then rest else (n', v') :: ndel rest n

/-- The node tree restricted to what `_put_version_duplicate` touches: the
NORMAL version of each node, the HISTORY rows, the rows created in other
clusters, and the uuid / version-serial counters. -/
structure Tree where
  normal : List (Nat × Version)
  history : List (Nat × Version)
  others : List (Nat × Version × Nat)
  nextUuid : Nat
  nextSerial : Nat
deriving DecidableEq, Repr

/-- `version_recluster(pre_version_id, CLUSTER_HISTORY)`: when a previous
version exists, move `node`'s NORMAL row (whose serial `pre_version_id` is)
to HISTORY. -/
def recluster (t : Tree) (node : Nat) (pre : Option Nat) :
    List (Nat × Version) × List (Nat × Version) :=
  match pre with
  | none => (t.normal, t.history)
  | some _ =>
    match nfind t.normal node with
    | some pv => (ndel t.normal node, t.history ++ [(node, pv)])
    | none => (t.normal, t.history)

/-- `_put_version_duplicate` (`modular.py`): create a new version of `node`,
inheriting the fields of the NORMAL version of `src_node` (or of `node`
itself), reclustering the previous NORMAL version of `node` to HISTORY, and
generating a fresh uuid exactly when `is_copy` is set or the source has no
NORMAL version.  Returns `(pre_version_id, dest_version_id, new tree)`. -/
def _put_version_duplicate (t : Tree) (node : Nat) (src_node : Option Nat)
    (size : Option Int) (vtype : Option String) (hash : Option String)
    (checksum : Option String) (cluster : Nat) (is_copy : Bool)
    (available : Bool) (keep_available : Bool) :
    Option Nat × Nat × Tree :=
  let props := nfind t.normal (src_node.getD node)
  let src_version_id := props.map (fun p => p.serial)
  let src_hash := props.bind (fun p => p.hash)
  let src_size := match props with | some p => p.size | none => 0
  let src_type := match props with | some p => p.vtype | none => ""
  let src_checksum := match props with | some p => p.checksum | none => ""
  let src_available := match props with
    | some p => if keep_available then p.available else available
    | none => available
  let src_mct := match props with
    | some p => if keep_available then p.map_check_timestamp else none
    | none => none
  let hash_size : Option String × Int := match size with
    | none => (src_hash, src_size)
    | some sz => (hash, sz)
  let vtype := vtype.getD src_type
  let checksum := checksum.getD src_checksum
  let uuid := if is_copy || src_version_id.isNone then t.nextUuid
    else match props with
      | some p => p.uuid
      | none => t.nextUuid
  let pre_version_id := match src_node with
    | none => src_version_id
    | some _ => (nfind t.normal node).map (fun p => p.serial)
  let moved := recluster t node pre_version_id
  let v : Version :=
    { serial := t.nextSerial, uuid := uuid, hash := hash_size.1,
      size := hash_size.2, vtype := vtype, checksum := checksum,
      available := src_available, map_check_timestamp := src_mct }
  let nextUuid := if is_copy || src_version_id.isNone then t.nextUuid + 1
    else t.nextUuid
  let t' : Tree :=
    if cluster = 0 then
      { normal := nset moved.1 node v, history := moved.2,
        others := t.others, nextUuid := nextUuid,
        nextSerial := t.nextSerial + 1 }
    else
      { normal := moved.1, history := moved.2,
        others := t.others ++ [(node, v, cluster)], nextUuid := nextUuid,
        nextSerial := t.nextSerial + 1 }
  (pre_version_id, t.nextSerial, t')

/-- The version step of `update_object_meta` → `_put_metadata`:
`_put_version_duplicate(user, node)` with every content argument at its
default. -/
def update_object_meta_version (t : Tree) (node : Nat) :
    Option Nat × Nat × Tree :=
  _put_version_duplicate t node none none none none none 0 false true true

/-- The version step of `copy_object` → `_copy_object` →
`_update_object_hash`: read the source's NORMAL version (`ItemNotExists`,
modelled as `none`, when absent), compute
`is_copy = (src != dest)` (for `copy_object`, `is_move` is false and
distinct paths mean distinct nodes), and duplicate it at the destination
node with `keep_available=False`. -/
def copy_object_version (t : Tree) (src_node dest_node : Nat) (ty : String) :
    Option (Nat × Tree) :=
  match nfind t.normal src_node with
  | none => none
  | some p =>
    let is_copy := decide (src_node ≠ dest_node)
    let r := _put_version_duplicate t dest_node (some src_node)
      (some p.size) (some ty) p.hash none 0 is_copy true false
    some (r.2.1, r.2.2)

end Versions

namespace Access

/-- A path, as its slash-separated components (`account / container /
object-name components`). -/
abbrev Path := List String

/-- One permission record of the permission index: the path it is set on and
its `read` and `write` principal lists. -/
structure PermEntry where
  path : Path
  read : List String
  write : List String
deriving DecidableEq, Repr

/-- `p` leads to `q`: `p` is `q` itself or an ancestor of it. -/
def pathLeads (p q : Path) : Bool :=
  decide (q.take p.length = p)

/-- Modelled from the spec: the permission index
(`pithos/backends/lib/*/permissions.py`) is not under the provided sources.
§4.4 `access_inherit(path) → ancestor-paths`: the recorded permission paths
at `path` or an ancestor of it. -/
def access_inherit (entries : List PermEntry) (path : Path) : List Path :=
  (entries.map (fun e => e.path)).filter (fun p => pathLeads p path)

/-- Modelled from the spec (§4.4): `access_check(path, action, principal)`
consults the action list recorded at `path` (group expansion is elided). -/
def access_check (entries : List PermEntry) (path : Path) (write : Bool)
    (user : String) : Bool :=
  match entries.find? (fun e => e.path = path) with
  | none => false
  | some e => user ∈ (if write then e.write else e.read)

/-- Directory-like content types (the `split(';')/strip()` normalisation is
elided: types are assumed plain). -/
def dirLike (t : String) : Bool :=
  t = "application/directory" || t = "application/folder"

/-- Insert a path into a list kept in descending length order. -/
def insertDesc (p : Path) : List Path → List Path
  | [] => [p]
  | q :: rest =>
    if q.length ≤ p.length then p :: q :: rest else q :: insertDesc p rest

/-- `permission_paths.sort(); permission_paths.reverse()`: descending order.
The candidates are ancestors-or-self of a single path, so descending string
order coincides with descending length (number of components) order. -/
def sortDesc : List Path → List Path
  | [] => []
  | p :: rest => insertDesc p (sortDesc rest)

/-- The scanning loop of `_get_permissions_path` over the candidate paths in
descending order. -/
def perm_path_scan (nodeType : Path → Option String) (path : Path) :
    List Path → Option Path
  | [] => none
  | p :: rest =>
    if p = path then some p
    else if p.length < 3 then perm_path_scan nodeType path rest
    else
      match nodeType p with
      | some t =>
        if dirLike t then some p else perm_path_scan nodeType path rest
      | none => perm_path_scan nodeType path rest

/-- `_get_permissions_path` (`modular.py`): the governing permission path of
an object — the first candidate, in descending order, that is the path
itself or a directory-like proper ancestor below the container level.
(The candidates are ancestors-or-self of `path`, so the source's descending
string sort coincides with sorting by number of components.) -/
def _get_permissions_path (entries : List PermEntry)
    (nodeType : Path → Option String) (path : Path) : Option Path :=
  perm_path_scan nodeType path (sortDesc (access_inherit entries path))

/-- `_can_write_object` (`modular.py`): the owner may always write; anyone
else needs `write` access at the governing permission path.  `true` means
the check passes, `false` that it raises `NotAllowed`. -/
def _can_write_object (entries : List PermEntry)
    (nodeType : Path → Option String) (user account : String)
    (rest : Path) : Bool :=
  if user = account then true
  else
    match _get_permissions_path entries nodeType (account :: rest) with
    | none => false
    | some p => access_check entries p true user

/-- The permission gate of `_update_object_hash` (reached from a PUT via
`update_object_hashmap`): a `permissions` argument is only allowed for the
owner, then `_can_write_object`. -/
def update_object_hash_gate (entries : List PermEntry)
    (nodeType : Path → Option String) (permissionsArg : Bool)
    (user account : String) (rest : Path) : Bool :=
  if permissionsArg && user ≠ account then false
  else _can_write_object entries nodeType user account rest

/-- The permission gate of `update_object_meta` (a POST):
`_can_write_object`. -/
def update_object_meta_gate (entries : List PermEntry)
    (nodeType : Path → Option String) (user account : String)
    (rest : Path) : Bool :=
  _can_write_object entries nodeType user account rest

/-- The permission gate of `_delete_object` (reached from a DELETE via
`delete_object`): `if user != account: raise NotAllowedError`. -/
def delete_object_gate (user account : String) : Bool :=
  user = account

end Access

namespace Availability

/-- The fields of a version that `_update_available` reads and writes. -/
structure AProps where
  available : Bool
  map_check_timestamp : Option Int
deriving DecidableEq, Repr

/-- The outcome of `_update_available`: the hashmap on success,
`NotAllowedError` for a throttled re-check, `IllegalOperationError` when the
backend does not hold the map. -/
inductive AResult where
  | ok (hashmap : List String)
  | notAllowed
  | illegalOperation
deriving DecidableEq, Repr

/-- Python truthiness of the stored `map_check_timestamp`. -/
def truthyTs : Option Int → Bool
  | none => false
  | some t => decide (t ≠ 0)

/-- `_update_available` (`modular.py`): a read of an unavailable version
within `map_check_interval` of the last failed check raises `NotAllowed`
without consulting the backend; otherwise the backend is asked for the map —
if present the version becomes available and the read succeeds, if absent
the check time is recorded and the read raises `IllegalOperation`.  (The
fresh-transaction bookkeeping that persists the property updates across the
rollback is not modelled; the resulting property values are.) -/
def _update_available (interval now : Int)
    (backendMap : Option (List String)) (p : AProps) : AProps × AResult :=
  if !p.available && truthyTs p.map_check_timestamp &&
      decide (now - p.map_check_timestamp.getD 0 < interval) then
    (p, .notAllowed)
  else
    match backendMap with
    | none => ({ p with map_check_timestamp := some now }, .illegalOperation)
    | some m =>
      ({ p with available := true, map_check_timestamp := some now }, .ok m)

end Availability

/-! ## Theorems -/

namespace Quotaholder

theorem hfind_hset_self (hs : List (HKey × Holding)) (k : HKey)
    (v : Holding) : hfind (hset hs k v) k = some v := by
  induction hs with
  | nil => simp [hset, hfind]
  | cons e rest ih =>
    by_cases he : e.1 = k
    · simp [hset, hfind, he]
    · simp only [hset]
      rw [if_neg he]
      simp only [hfind]
      rw [if_neg he]
      exact ih

theorem hfind_hset_other (hs : List (HKey × Holding)) (k m : HKey)
    (v : Holding) (h : m ≠ k) : hfind (hset hs k v) m = hfind hs m := by
  induction hs with
  | nil =>
    simp only [hset, hfind]
    rw [if_neg (fun hc => h hc.symm)]
  | cons e rest ih =>
    by_cases he : e.1 = k
    · simp only [hset]
      rw [if_pos he]
      simp only [hfind]
      rw [if_neg (fun hc => h hc.symm), if_neg (he ▸ fun hc => h hc.symm)]
    · simp only [hset]
      rw [if_neg he]
      simp only [hfind]
      by_cases hm : e.1 = m
      · rw [if_pos hm, if_pos hm]
      · rw [if_neg hm, if_neg hm]
        exact ih

theorem hset_find_self (hs : List (HKey × Holding)) (k : HKey) (v : Holding)
    (h : hfind hs k = some v) : hset hs k v = hs := by
  induction hs with
  | nil => simp [hfind] at h
  | cons e rest ih =>
    simp only [hfind] at h
    by_cases he : e.1 = k
    · rw [if_pos he] at h
      have hv : e.2 = v := Option.some_injective _ h
      simp only [hset]
      rw [if_pos he, ← he, ← hv]
    · rw [if_neg he] at h
      simp only [hset]
      rw [if_neg he, ih h]

theorem hset_hset (hs : List (HKey × Holding)) (k : HKey) (v w : Holding) :
    hset (hset hs k v) k w = hset hs k w := by
  induction hs with
  | nil => simp [hset]
  | cons e rest ih =>
    by_cases he : e.1 = k
    · simp [hset, he]
    · simp only [hset]
      rw [if_neg he, if_neg he]
      simp only [hset]
      rw [if_neg he, ih]

/-- Group lookup in the `_partition_by` dictionary. -/
def gfind (d : List (HKey × List Int)) (k : HKey) : Option (List Int) :=
  match d with
  | [] => none
  | (k', l) :: rest => if k' = k then some l else gfind rest k

theorem gfind_addToGroup_self (d : List (HKey × List Int)) (k : HKey)
    (q : Int) :
    gfind (addToGroup d k q) k = some ((gfind d k).getD [] ++ [q]) := by
  induction d with
  | nil => simp [addToGroup, gfind]
  | cons e rest ih =>
    by_cases he : e.1 = k
    · simp [addToGroup, gfind, he]
    · simp only [addToGroup]
      rw [if_neg he]
      simp only [gfind]
      rw [if_neg he, if_neg he]
      exact ih

theorem gfind_addToGroup_other (d : List (HKey × List Int)) (k m : HKey)
    (q : Int) (h : m ≠ k) :
    gfind (addToGroup d k q) m = gfind d m := by
  induction d with
  | nil =>
    simp only [addToGroup, gfind]
    rw [if_neg (fun hc => h hc.symm)]
  | cons e rest ih =>
    by_cases he : e.1 = k
    · simp only [addToGroup]
      rw [if_pos he]
      simp only [gfind]
      rw [if_neg (fun hc : e.1 = m => h (hc.symm.trans he)),
        if_neg (fun hc : e.1 = m => h (hc.symm.trans he))]
    · simp only [addToGroup]
      rw [if_neg he]
      simp only [gfind]
      by_cases hm : e.1 = m
      · rw [if_pos hm, if_pos hm]
      · rw [if_neg hm, if_neg hm]
        exact ih

theorem gfind_partition_fold :
    ∀ (ps : List (HKey × Int)) (d : List (HKey × List Int)) (k : HKey),
      gfind (ps.foldl (fun d kq => addToGroup d kq.1 kq.2) d) k =
        match gfind d k with
        | some l => some (l ++ (ps.filter (fun kq => kq.1 = k)).map
            (fun kq => kq.2))
        | none =>
          if ps.filter (fun kq => kq.1 = k) = [] then none
          else some ((ps.filter (fun kq => kq.1 = k)).map (fun kq => kq.2))
  | [], d, k => by
    simp only [List.foldl_nil, List.filter_nil]
    rcases h : gfind d k with _ | l
    · simp [h]
    · simp [h]
  | (k0, q0) :: rest, d, k => by
    simp only [List.foldl_cons]
    rw [gfind_partition_fold rest (addToGroup d k0 q0) k]
    by_cases hk : k0 = k
    · subst hk
      rw [gfind_addToGroup_self]
      rcases h : gfind d k0 with _ | l
      · simp only [h, Option.getD_none, List.nil_append]
        rw [List.filter_cons_of_pos (by simp)]
        simp
      · simp only [h, Option.getD_some]
        rw [List.filter_cons_of_pos (by simp)]
        simp
    · rw [gfind_addToGroup_other d k0 k q0 (fun hc => hk hc.symm)]
      rw [List.filter_cons_of_neg (by simp [hk])]

theorem gfind_keys_none :
    ∀ (d : List (HKey × List Int)) (k : HKey),
      gfind d k = none ↔ k ∉ d.map (fun e => e.1)
  | [], k => by simp [gfind]
  | e :: rest, k => by
    simp only [gfind, List.map_cons, List.mem_cons]
    by_cases he : e.1 = k
    · simp [he]
    · rw [if_neg he]
      rw [gfind_keys_none rest k]
      simp only [not_or]
      constructor
      · intro h
        exact ⟨fun hc => he hc.symm, h⟩
      · intro h
        exact h.2

theorem addToGroup_keys_nodup (d : List (HKey × List Int)) (k : HKey)
    (q : Int) (hnd : (d.map (fun e => e.1)).Nodup) :
    ((addToGroup d k q).map (fun e => e.1)).Nodup := by
  induction d with
  | nil => simp [addToGroup]
  | cons e rest ih =>
    simp only [List.map_cons, List.nodup_cons] at hnd
    by_cases he : e.1 = k
    · simp only [addToGroup]
      rw [if_pos he]
      simp only [List.map_cons, List.nodup_cons]
      exact ⟨he ▸ hnd.1, hnd.2⟩
    · simp only [addToGroup]
      rw [if_neg he]
      simp only [List.map_cons, List.nodup_cons]
      refine ⟨?_, ih hnd.2⟩
      rw [← gfind_keys_none, gfind_addToGroup_other rest k e.1 q he]
      exact (gfind_keys_none rest e.1).mpr hnd.1

theorem partition_by_keys_nodup (ps : List (HKey × Int)) :
    ((partition_by ps).map (fun e => e.1)).Nodup := by
  suffices h : ∀ (l : List (HKey × Int)) (d : List (HKey × List Int)),
      (d.map (fun e => e.1)).Nodup →
      ((l.foldl (fun d kq => addToGroup d kq.1 kq.2) d).map
        (fun e => e.1)).Nodup by
    exact h ps [] (by simp)
  intro l
  induction l with
  | nil => intro d hd; exact hd
  | cons e rest ih =>
    intro d hd
    exact ih (addToGroup d e.1 e.2) (addToGroup_keys_nodup d e.1 e.2 hd)

/-- `_merge_same_keys` produces pairwise-distinct keys. -/
theorem merge_same_keys_nodup (ps : List (HKey × Int)) :
    ((merge_same_keys ps).map (fun kq => kq.1)).Nodup := by
  have h := partition_by_keys_nodup ps
  simpa [merge_same_keys, Function.comp] using h

theorem gfind_mem_nodup (d : List (HKey × List Int)) (k : HKey)
    (l : List Int) (hnd : (d.map (fun e => e.1)).Nodup) :
    (k, l) ∈ d ↔ gfind d k = some l := by
  induction d with
  | nil => simp [gfind]
  | cons e rest ih =>
    simp only [List.map_cons, List.nodup_cons] at hnd
    simp only [List.mem_cons, gfind]
    by_cases he : e.1 = k
    · rw [if_pos he]
      constructor
      · rintro (rfl | hmem)
        · rfl
        · exact absurd (he ▸ List.mem_map_of_mem (fun e => e.1) hmem) hnd.1
      · intro h
        left
        have h2 := Option.some_injective _ h
        cases e
        simp only at he h2
        rw [he, h2]

    · rw [if_neg he]
      rw [ih hnd.2]
      constructor
      · rintro (h | h)
        · cases e
          simp only at he
          exact absurd (congrArg Prod.fst h).symm he
        · exact h
      · intro h
        right
        exact h

/-- `_merge_same_keys` characterised: `(k, q)` is a merged provision exactly
when some input provision has key `k` and `q` is the sum of the quantities
of all input provisions with key `k`. -/
theorem mem_merge_same_keys (ps : List (HKey × Int)) (k : HKey) (q : Int) :
    (k, q) ∈ merge_same_keys ps ↔
      (ps.filter (fun kq => kq.1 = k) ≠ [] ∧
        q = ((ps.filter (fun kq => kq.1 = k)).map (fun kq => kq.2)).sum) := by
  have hpart : gfind (partition_by ps) k =
      (if ps.filter (fun kq => kq.1 = k) = [] then none
       else some ((ps.filter (fun kq => kq.1 = k)).map (fun kq => kq.2))) := by
    have h := gfind_partition_fold ps [] k
    simpa [partition_by, gfind] using h
  constructor
  · intro hmem
    simp only [merge_same_keys, List.mem_map] at hmem
    obtain ⟨kl, hkl, heq⟩ := hmem
    have hk : kl.1 = k := congrArg Prod.fst heq
    have hq : kl.2.sum = q := congrArg Prod.snd heq
    have hfind : gfind (partition_by ps) k = some kl.2 := by
      rw [← hk]
      exact (gfind_mem_nodup (partition_by ps) kl.1 kl.2
        (partition_by_keys_nodup ps)).mp hkl
    rw [hpart] at hfind
    by_cases hf : ps.filter (fun kq => kq.1 = k) = []
    · rw [if_pos hf] at hfind
      exact absurd hfind (by simp)
    · rw [if_neg hf] at hfind
      have := Option.some_injective _ hfind
      exact ⟨hf, by rw [← hq, this]⟩
  · rintro ⟨hne, rfl⟩
    have hfind : gfind (partition_by ps) k =
        some ((ps.filter (fun kq => kq.1 = k)).map (fun kq => kq.2)) := by
      rw [hpart, if_neg hne]
    have hmem := (gfind_mem_nodup (partition_by ps) k _
      (partition_by_keys_nodup ps)).mpr hfind
    simp only [merge_same_keys, List.mem_map]
    exact ⟨_, hmem, rfl⟩

theorem undoOp_hset_import (hs : List (HKey × Holding)) (key : HKey)
    (th th' : Holding) (q : Int) (force : Bool)
    (hf : hfind hs key = some th)
    (hp : prepareImport th q force = some th') :
    undoOp (hset hs key th') ⟨.imp, key, q⟩ = hs := by
  have hth' : th' = { th with usage_max := th.usage_max + q } := by
    unfold prepareImport at hp
    by_cases hc : (force || decide (th.usage_max + q ≤ th.limit)) = true
    · rw [if_pos hc] at hp
      exact (Option.some_injective _ hp).symm
    · rw [if_neg hc] at hp
      exact absurd hp (by simp)
  subst hth'
  simp only [undoOp, hfind_hset_self]
  rw [hset_hset]
  have hval : ({ th with usage_max := th.usage_max + q - q } : Holding) =
      th := by
    cases th
    simp only [Holding.mk.injEq, true_and, and_true]
    ring
  simp only [hval]
  exact hset_find_self hs key th hf

theorem undoOp_hset_release (hs : List (HKey × Holding)) (key : HKey)
    (th th' : Holding) (a : Int)
    (hf : hfind hs key = some th)
    (hp : prepareRelease th a = some th') :
    undoOp (hset hs key th') ⟨.rel, key, a⟩ = hs := by
  have hth' : th' = { th with usage_min := th.usage_min - a } := by
    unfold prepareRelease at hp
    by_cases hc : 0 ≤ th.usage_min - a
    · rw [if_pos hc] at hp
      exact (Option.some_injective _ hp).symm
    · rw [if_neg hc] at hp
      exact absurd hp (by simp)
  subst hth'
  simp only [undoOp, hfind_hset_self]
  rw [hset_hset]
  have hval : ({ th with usage_min := th.usage_min - a + a } : Holding) =
      th := by
    cases th
    simp only [Holding.mk.injEq, true_and, and_true]
    ring
  simp only [hval]
  exact hset_find_self hs key th hf

/-- On any failure, `Operations.revert` applied to the failure-point holdings
and operation log restores exactly what reverting the entry log over the
entry holdings yields. -/
theorem issue_loop_fail_revert (force : Bool) :
    ∀ (l : List (HKey × Int)) (hs : List (HKey × Holding))
      (ops : List PreparedOp) (created : List (HKey × Int))
      (e : QHError) (hs' : List (HKey × Holding)) (ops' : List PreparedOp),
      issue_loop force hs ops created l = .fail e hs' ops' →
      revertOps ops' hs' = revertOps ops hs
  | [], hs, ops, created, e, hs', ops', h => by
    simp [issue_loop] at h
  | (key, q) :: rest, hs, ops, created, e, hs', ops', h => by
    simp only [issue_loop] at h
    match hf : hfind hs key with
    | none =>
      simp only [hf, IssueOutcome.fail.injEq] at h
      rw [← h.2.1, ← h.2.2]
    | some th =>
      simp only [hf] at h
      by_cases hq : 0 ≤ q
      · rw [if_pos hq] at h
        match hp : prepareImport th q force with
        | none =>
          simp only [hp, IssueOutcome.fail.injEq] at h
          rw [← h.2.1, ← h.2.2]
        | some th' =>
          simp only [hp] at h
          have ih := issue_loop_fail_revert force rest (hset hs key th')
            (⟨.imp, key, q⟩ :: ops) (created ++ [(key, q)]) e hs' ops' h
          rw [ih]
          simp only [revertOps, List.foldl_cons]
          rw [undoOp_hset_import hs key th th' q force hf hp]
      · rw [if_neg hq] at h
        match hp : prepareRelease th (-q) with
        | none =>
          simp only [hp, IssueOutcome.fail.injEq] at h
          rw [← h.2.1, ← h.2.2]
        | some th' =>
          simp only [hp] at h
          have ih := issue_loop_fail_revert force rest (hset hs key th')
            (⟨.rel, key, -q⟩ :: ops) (created ++ [(key, q)]) e hs' ops' h
          rw [ih]
          simp only [revertOps, List.foldl_cons]
          rw [undoOp_hset_release hs key th th' (-q) hf hp]

/-- If some provision of the (distinct-key) list fails its check against the
entry holdings, the loop fails with a `NoHolding` or quota-limit error
carrying an offending provision. -/
theorem issue_loop_fails (force : Bool) (hs0 : List (HKey × Holding)) :
    ∀ (l : List (HKey × Int)) (hs : List (HKey × Holding))
      (ops : List PreparedOp) (created : List (HKey × Int)),
      (l.map (fun kq => kq.1)).Nodup →
      (∀ kq ∈ l, hfind hs kq.1 = hfind hs0 kq.1) →
      (∃ kq ∈ l, provisionCheckFails hs0 force kq = true) →
      ∃ e hs' ops', issue_loop force hs ops created l = .fail e hs' ops' ∧
        ∃ kq, kq ∈ l ∧ provisionCheckFails hs0 force kq = true ∧
          ((e = .noHolding kq ∧ hfind hs0 kq.1 = none) ∨
            (e = .quotaLimit kq ∧ (hfind hs0 kq.1).isSome = true))
  | [], hs, ops, created, _, _, hex => by
    simp at hex
  | (key, q) :: rest, hs, ops, created, hnd, hagree, hex => by
    have hagree_head : hfind hs key = hfind hs0 key :=
      hagree (key, q) (List.mem_cons_self _ _)
    by_cases hfail : provisionCheckFails hs0 force (key, q) = true
    · match hf0 : hfind hs0 key with
      | none =>
        refine ⟨.noHolding (key, q), hs, ops, ?_, (key, q),
          List.mem_cons_self _ _, hfail, Or.inl ⟨rfl, hf0⟩⟩
        simp only [issue_loop, hagree_head, hf0]
      | some th =>
        have hfs : hfind hs key = some th := hagree_head.trans hf0
        by_cases hq : 0 ≤ q
        · have hp : prepareImport th q force = none := by
            have hthis := hfail
            simp only [provisionCheckFails, hf0] at hthis
            rw [if_pos hq] at hthis
            exact Option.isNone_iff_eq_none.mp hthis
          refine ⟨.quotaLimit (key, q), hs, ops, ?_, (key, q),
            List.mem_cons_self _ _, hfail, Or.inr ⟨rfl, by simp [hf0]⟩⟩
          simp only [issue_loop, hfs]
          rw [if_pos hq]
          simp [hp]
        · have hp : prepareRelease th (-q) = none := by
            have hthis := hfail
            simp only [provisionCheckFails, hf0] at hthis
            rw [if_neg hq] at hthis
            exact Option.isNone_iff_eq_none.mp hthis
          refine ⟨.quotaLimit (key, q), hs, ops, ?_, (key, q),
            List.mem_cons_self _ _, hfail, Or.inr ⟨rfl, by simp [hf0]⟩⟩
          simp only [issue_loop, hfs]
          rw [if_neg hq]
          simp [hp]
    · have hwit : ∃ kq ∈ rest, provisionCheckFails hs0 force kq = true := by
        obtain ⟨kq, hkq, hkqf⟩ := hex
        rcases List.mem_cons.mp hkq with rfl | hkq
        · exact absurd hkqf hfail
        · exact ⟨kq, hkq, hkqf⟩
      match hf0 : hfind hs0 key with
      | none =>
        exact absurd (by simp [provisionCheckFails, hf0]) hfail
      | some th =>
        have hfs : hfind hs key = some th := hagree_head.trans hf0
        simp only [List.map_cons, List.nodup_cons] at hnd
        have hagree' : ∀ th' : Holding, ∀ kq ∈ rest,
            hfind (hset hs key th') kq.1 = hfind hs0 kq.1 := by
          intro th' kq hkq
          have hne : kq.1 ≠ key := by
            intro hc
            exact hnd.1 (hc ▸ List.mem_map_of_mem (fun kq => kq.1) hkq)
          rw [hfind_hset_other hs key kq.1 th' hne]
          exact hagree kq (List.mem_cons_of_mem _ hkq)
        by_cases hq : 0 ≤ q
        · match hp : prepareImport th q force with
          | none =>
            exact absurd (by simp [provisionCheckFails, hf0, if_pos hq, hp])
              hfail
          | some th' =>
            obtain ⟨e, hs', ops', heq, wit⟩ := issue_loop_fails force hs0
              rest (hset hs key th') (⟨.imp, key, q⟩ :: ops)
              (created ++ [(key, q)]) hnd.2 (hagree' th') hwit
            refine ⟨e, hs', ops', ?_, ?_⟩
            · simp only [issue_loop, hfs]
              rw [if_pos hq]
              simp only [hp]
              exact heq
            · obtain ⟨kq, hkq, hkqf, herr⟩ := wit
              exact ⟨kq, List.mem_cons_of_mem _ hkq, hkqf, herr⟩
        · match hp : prepareRelease th (-q) with
          | none =>
            exact absurd (by simp [provisionCheckFails, hf0, if_neg hq, hp])
              hfail
          | some th' =>
            obtain ⟨e, hs', ops', heq, wit⟩ := issue_loop_fails force hs0
              rest (hset hs key th') (⟨.rel, key, -q⟩ :: ops)
              (created ++ [(key, q)]) hnd.2 (hagree' th') hwit
            refine ⟨e, hs', ops', ?_, ?_⟩
            · simp only [issue_loop, hfs]
              rw [if_neg hq]
              simp only [hp]
              exact heq
            · obtain ⟨kq, hkq, hkqf, herr⟩ := wit
              exact ⟨kq, List.mem_cons_of_mem _ hkq, hkqf, herr⟩

/-- C1.  When any provision's check fails, `issue_commission` raises
`NoHolding` or the quota-limit error carrying an offending provision, all
prepares already applied are undone (the resulting state — holdings,
`Commission` and `Provision` tables, serial counter — is exactly the entry
state, so no records are created), and before checking, provisions with
identical keys are merged by summing their quantities. -/
theorem issue_commission_rolls_back (st : QHState) (clientkey name : String)
    (provisions : List (HKey × Int)) (force : Bool)
    (hfail : ∃ kq ∈ merge_same_keys provisions,
      provisionCheckFails st.holdings force kq = true) :
    ∃ e, (issue_commission st clientkey provisions name force).2 =
        .error e ∧
      (issue_commission st clientkey provisions name force).1 = st ∧
      (∃ kq, kq ∈ merge_same_keys provisions ∧
        provisionCheckFails st.holdings force kq = true ∧
        ((e = .noHolding kq ∧ hfind st.holdings kq.1 = none) ∨
          (e = .quotaLimit kq ∧ (hfind st.holdings kq.1).isSome = true))) ∧
      ((merge_same_keys provisions).map (fun kq => kq.1)).Nodup ∧
      (∀ k q, (k, q) ∈ merge_same_keys provisions ↔
        (provisions.filter (fun kq => kq.1 = k) ≠ [] ∧
          q = ((provisions.filter (fun kq => kq.1 = k)).map
            (fun kq => kq.2)).sum)) := by
  have hnd := merge_same_keys_nodup provisions
  obtain ⟨e, hs', ops', heq, wit⟩ := issue_loop_fails force st.holdings
    (merge_same_keys provisions) st.holdings [] [] hnd
    (fun _ _ => rfl) hfail
  have hrev := issue_loop_fail_revert force (merge_same_keys provisions)
    st.holdings [] [] e hs' ops' heq
  simp only [revertOps, List.foldl_nil] at hrev
  refine ⟨e, ?_, ?_, wit, hnd,
    fun k q => mem_merge_same_keys provisions k q⟩
  · simp only [issue_commission, heq]
  · simp only [issue_commission, heq, revertOps]
    rw [hrev]

/-- The entry state of the C1 witness: one holding with limit 5 and no
usage. -/
def cexQHState : QHState :=
  { holdings := [(("u", "s", "r"), ⟨5, 0, 0⟩)], commissions := [],
    provisions := [], provisionLog := [], serialCounter := 1 }

/-- Witness for C1: two provisions on the same key merge to quantity 7,
which exceeds the limit 5, so the commission fails and changes nothing. -/
theorem issue_commission_rolls_back_witness :
    (∃ kq ∈ merge_same_keys [(("u", "s", "r"), (3 : Int)),
        (("u", "s", "r"), 4)],
      provisionCheckFails cexQHState.holdings false kq = true) ∧
    ∃ e, (issue_commission cexQHState "ck"
        [(("u", "s", "r"), (3 : Int)), (("u", "s", "r"), 4)] "nm"
        false).2 = .error e ∧
      (issue_commission cexQHState "ck"
        [(("u", "s", "r"), (3 : Int)), (("u", "s", "r"), 4)] "nm"
        false).1 = cexQHState ∧
      (∃ kq, kq ∈ merge_same_keys [(("u", "s", "r"), (3 : Int)),
          (("u", "s", "r"), 4)] ∧
        provisionCheckFails cexQHState.holdings false kq = true ∧
        ((e = .noHolding kq ∧ hfind cexQHState.holdings kq.1 = none) ∨
          (e = .quotaLimit kq ∧
            (hfind cexQHState.holdings kq.1).isSome = true))) ∧
      ((merge_same_keys [(("u", "s", "r"), (3 : Int)),
          (("u", "s", "r"), 4)]).map (fun kq => kq.1)).Nodup ∧
      (∀ k q, (k, q) ∈ merge_same_keys [(("u", "s", "r"), (3 : Int)),
          (("u", "s", "r"), 4)] ↔
        ([(("u", "s", "r"), (3 : Int)), (("u", "s", "r"), 4)].filter
            (fun kq => kq.1 = k) ≠ [] ∧
          q = (([(("u", "s", "r"), (3 : Int)),
              (("u", "s", "r"), 4)].filter (fun kq => kq.1 = k)).map
            (fun kq => kq.2)).sum)) :=
  ⟨by decide,
    issue_commission_rolls_back cexQHState "ck" "nm"
      [(("u", "s", "r"), (3 : Int)), (("u", "s", "r"), 4)] false
      (by decide)⟩

theorem aget_eq_none :
    ∀ (acts : List (Nat × Bool)) (s : Nat),
      aget acts s = none ↔ s ∉ acts.map (fun ab => ab.1)
  | [], s => by simp [aget]
  | e :: rest, s => by
    simp only [aget, List.map_cons, List.mem_cons]
    by_cases he : e.1 = s
    · simp [he]
    · rw [if_neg he, aget_eq_none rest s]
      simp only [not_or]
      constructor
      · intro h
        exact ⟨fun hc => he hc.symm, h⟩
      · intro h
        exact h.2

theorem mem_keys_apop :
    ∀ (acts : List (Nat × Bool)) (s t : Nat),
      t ∈ (apop acts s).map (fun ab => ab.1) →
      t ∈ acts.map (fun ab => ab.1)
  | [], s, t, h => h
  | e :: rest, s, t, h => by
    simp only [apop] at h
    by_cases he : e.1 = s
    · rw [if_pos he] at h
      exact List.mem_cons_of_mem _ h
    · rw [if_neg he] at h
      simp only [List.map_cons, List.mem_cons] at h ⊢
      rcases h with h | h
      · exact Or.inl h
      · exact Or.inr (mem_keys_apop rest s t h)

theorem apop_keys_nodup :
    ∀ (acts : List (Nat × Bool)) (s : Nat),
      (acts.map (fun ab => ab.1)).Nodup →
      ((apop acts s).map (fun ab => ab.1)).Nodup
  | [], _, h => h
  | e :: rest, s, h => by
    simp only [List.map_cons, List.nodup_cons] at h
    simp only [apop]
    by_cases he : e.1 = s
    · rw [if_pos he]
      exact h.2
    · rw [if_neg he]
      simp only [List.map_cons, List.nodup_cons]
      exact ⟨fun hc => h.1 (mem_keys_apop rest s e.1 hc),
        apop_keys_nodup rest s h.2⟩

theorem aget_apop_self :
    ∀ (acts : List (Nat × Bool)) (s : Nat),
      (acts.map (fun ab => ab.1)).Nodup → aget (apop acts s) s = none
  | [], s, _ => rfl
  | e :: rest, s, hnd => by
    simp only [List.map_cons, List.nodup_cons] at hnd
    simp only [apop]
    by_cases he : e.1 = s
    · rw [if_pos he]
      exact (aget_eq_none rest s).mpr (he ▸ hnd.1)
    · rw [if_neg he]
      simp only [aget]
      rw [if_neg he]
      exact aget_apop_self rest s hnd.2

theorem aget_apop_other :
    ∀ (acts : List (Nat × Bool)) (s t : Nat), t ≠ s →
      aget (apop acts s) t = aget acts t
  | [], s, t, _ => rfl
  | e :: rest, s, t, h => by
    simp only [apop, aget]
    by_cases he : e.1 = s
    · rw [if_pos he, if_neg (fun hc : e.1 = t => h ((hc.symm.trans he)))]
    · rw [if_neg he]
      simp only [aget]
      by_cases ht : e.1 = t
      · rw [if_pos ht, if_pos ht]
      · rw [if_neg ht, if_neg ht]
        exact aget_apop_other rest s t h

theorem aget_aset_self :
    ∀ (acts : List (Nat × Bool)) (s : Nat) (v : Bool),
      aget (aset acts s v) s = some v
  | [], s, v => by simp [aset, aget]
  | e :: rest, s, v => by
    simp only [aset]
    by_cases he : e.1 = s
    · rw [if_pos he]
      simp [aget]
    · rw [if_neg he]
      simp only [aget]
      rw [if_neg he]
      exact aget_aset_self rest s v

theorem aget_aset_other :
    ∀ (acts : List (Nat × Bool)) (s t : Nat) (v : Bool), t ≠ s →
      aget (aset acts s v) t = aget acts t
  | [], s, t, v, h => by
    simp only [aset, aget]
    rw [if_neg (fun hc : s = t => h hc.symm)]
  | e :: rest, s, t, v, h => by
    simp only [aset]
    by_cases he : e.1 = s
    · rw [if_pos he]
      simp only [aget]
      rw [if_neg (fun hc : s = t => h hc.symm),
        if_neg (fun hc : e.1 = t => h (hc.symm.trans he))]
    · rw [if_neg he]
      simp only [aget]
      by_cases ht : e.1 = t
      · rw [if_pos ht, if_pos ht]
      · rw [if_neg ht, if_neg ht]
        exact aget_aset_other rest s t v h

theorem mem_keys_aset :
    ∀ (acts : List (Nat × Bool)) (s t : Nat) (v : Bool),
      t ∈ (aset acts s v).map (fun ab => ab.1) →
      t ∈ acts.map (fun ab => ab.1) ∨ t = s
  | [], s, t, v, h => by
    simp only [aset, List.map_cons, List.map_nil, List.mem_singleton] at h
    exact Or.inr h
  | e :: rest, s, t, v, h => by
    simp only [aset] at h
    by_cases he : e.1 = s
    · rw [if_pos he] at h
      simp only [List.map_cons, List.mem_cons] at h ⊢
      rcases h with h | h
      · exact Or.inr h
      · exact Or.inl (Or.inr h)
    · rw [if_neg he] at h
      simp only [List.map_cons, List.mem_cons] at h ⊢
      rcases h with h | h
      · exact Or.inl (Or.inl h)
      · rcases mem_keys_aset rest s t v h with h2 | h2
        · exact Or.inl (Or.inr h2)
        · exact Or.inr h2

theorem aset_keys_nodup :
    ∀ (acts : List (Nat × Bool)) (s : Nat) (v : Bool),
      (acts.map (fun ab => ab.1)).Nodup →
      ((aset acts s v).map (fun ab => ab.1)).Nodup
  | [], s, v, _ => by simp [aset]
  | e :: rest, s, v, hnd => by
    simp only [List.map_cons, List.nodup_cons] at hnd
    simp only [aset]
    by_cases he : e.1 = s
    · rw [if_pos he]
      simp only [List.map_cons, List.nodup_cons]
      exact ⟨he ▸ hnd.1, hnd.2⟩
    · rw [if_neg he]
      simp only [List.map_cons, List.nodup_cons]
      refine ⟨?_, aset_keys_nodup rest s v hnd.2⟩
      intro hc
      rcases mem_keys_aset rest s e.1 v hc with h2 | h2
      · exact hnd.1 h2
      · exact he h2

theorem aget_append_single (d : List (Nat × Bool)) (a s : Nat) (b : Bool) :
    aget (d ++ [(a, b)]) s =
      match aget d s with
      | some v => some v
      | none => if a = s then some b else none := by
  induction d with
  | nil => simp [aget]
  | cons e rest ih =>
    simp only [List.cons_append, aget]
    by_cases he : e.1 = s
    · rw [if_pos he, if_pos he]
    · rw [if_neg he, if_neg he]
      exact ih

theorem fromkeys_fold_aget :
    ∀ (l : List Nat) (d : List (Nat × Bool)) (s : Nat),
      aget (l.foldl (fun d s =>
        if (aget d s).isSome then d else d ++ [(s, true)]) d) s =
      match aget d s with
      | some v => some v
      | none => if s ∈ l then some true else none
  | [], d, s => by
    rcases h : aget d s with _ | v <;> simp [h]
  | a :: rest, d, s => by
    simp only [List.foldl_cons]
    rw [fromkeys_fold_aget rest _ s]
    by_cases ha : (aget d a).isSome
    · rw [if_pos ha]
      rcases h : aget d s with _ | v
      · have hne : ¬s = a := by
          intro hc
          rw [hc] at h
          rw [h] at ha
          simp at ha
        simp [List.mem_cons, hne]
      · simp
    · rw [if_neg ha]
      rw [aget_append_single d a s true]
      rcases h : aget d s with _ | v
      · simp only
        by_cases hsa : a = s
        · simp [hsa, List.mem_cons]
        · rw [if_neg hsa]
          simp only [List.mem_cons]
          have hne : ¬s = a := fun hc => hsa hc.symm
          simp [hne]
      · simp

theorem fromkeys_aget (l : List Nat) (s : Nat) :
    aget (fromkeys l) s = if s ∈ l then some true else none := by
  have h := fromkeys_fold_aget l [] s
  simpa [fromkeys, aget] using h

theorem fromkeys_fold_nodup :
    ∀ (l : List Nat) (d : List (Nat × Bool)),
      (d.map (fun ab => ab.1)).Nodup →
      ((l.foldl (fun d s =>
        if (aget d s).isSome then d else d ++ [(s, true)]) d).map
          (fun ab => ab.1)).Nodup
  | [], d, h => h
  | a :: rest, d, h => by
    simp only [List.foldl_cons]
    by_cases ha : (aget d a).isSome
    · rw [if_pos ha]
      exact fromkeys_fold_nodup rest d h
    · rw [if_neg ha]
      refine fromkeys_fold_nodup rest _ ?_
      simp only [List.map_append, List.map_cons, List.map_nil]
      rw [List.nodup_append]
      refine ⟨h, List.nodup_singleton a, ?_⟩
      intro x hx hxa
      simp only [List.mem_singleton] at hxa
      subst hxa
      have : aget d x = none := by
        rcases hg : aget d x with _ | v
        · rfl
        · rw [hg] at ha
          simp at ha
      exact (aget_eq_none d x).mp this hx

theorem fromkeys_keys_nodup (l : List Nat) :
    ((fromkeys l).map (fun ab => ab.1)).Nodup :=
  fromkeys_fold_nodup l [] (by simp)

theorem process_reject_confl_mono :
    ∀ (r : List Nat) (acts : List (Nat × Bool)) (confl : List Nat),
      ∀ x ∈ confl, x ∈ (process_reject r acts confl).2
  | [], acts, confl, x, hx => hx
  | t :: rest, acts, confl, x, hx => by
    simp only [process_reject]
    by_cases ht : aget acts t = some true
    · rw [if_pos ht]
      exact process_reject_confl_mono rest _ _ x
        (List.mem_append_left _ hx)
    · rw [if_neg ht]
      exact process_reject_confl_mono rest _ _ x hx

theorem process_reject_keys_nodup :
    ∀ (r : List Nat) (acts : List (Nat × Bool)) (confl : List Nat),
      (acts.map (fun ab => ab.1)).Nodup →
      ((process_reject r acts confl).1.map (fun ab => ab.1)).Nodup
  | [], acts, confl, h => h
  | t :: rest, acts, confl, h => by
    simp only [process_reject]
    by_cases ht : aget acts t = some true
    · rw [if_pos ht]
      exact process_reject_keys_nodup rest _ _ (apop_keys_nodup acts t h)
    · rw [if_neg ht]
      exact process_reject_keys_nodup rest _ _
        (aset_keys_nodup acts t false h)

theorem process_reject_stable_none :
    ∀ (r : List Nat) (acts : List (Nat × Bool)) (confl : List Nat)
      (s : Nat), s ∉ r → aget acts s = none →
      aget (process_reject r acts confl).1 s = none
  | [], acts, confl, s, _, hnone => hnone
  | t :: rest, acts, confl, s, hs, hnone => by
    have hne : s ≠ t := fun hc => hs (hc ▸ List.mem_cons_self t rest)
    have hrest : s ∉ rest := fun hc => hs (List.mem_cons_of_mem t hc)
    simp only [process_reject]
    by_cases ht : aget acts t = some true
    · rw [if_pos ht]
      exact process_reject_stable_none rest _ _ s hrest
        (by rw [aget_apop_other acts t s hne]; exact hnone)
    · rw [if_neg ht]
      exact process_reject_stable_none rest _ _ s hrest
        (by rw [aget_aset_other acts t s false hne]; exact hnone)

/-- A serial found in the reject set while its action is `True` is popped
for good and recorded as conflicting. -/
theorem process_reject_conflicting :
    ∀ (r : List Nat) (acts : List (Nat × Bool)) (confl : List Nat)
      (s : Nat), r.Nodup → (acts.map (fun ab => ab.1)).Nodup →
      s ∈ r → aget acts s = some true →
      aget (process_reject r acts confl).1 s = none ∧
        s ∈ (process_reject r acts confl).2
  | [], acts, confl, s, _, _, hs, _ => absurd hs (List.not_mem_nil s)
  | t :: rest, acts, confl, s, hrnd, hand, hs, htrue => by
    simp only [List.nodup_cons] at hrnd
    simp only [process_reject]
    by_cases hst : s = t
    · subst hst
      rw [if_pos htrue]
      constructor
      · exact process_reject_stable_none rest _ _ s hrnd.1
          (aget_apop_self acts s hand)
      · exact process_reject_confl_mono rest _ _ s
          (List.mem_append_right _ (List.mem_singleton.mpr rfl))
    · have hsrest : s ∈ rest := by
        rcases List.mem_cons.mp hs with h | h
        · exact absurd h hst
        · exact h
      by_cases ht : aget acts t = some true
      · rw [if_pos ht]
        exact process_reject_conflicting rest _ _ s hrnd.2
          (apop_keys_nodup acts t hand) hsrest
          (by rw [aget_apop_other acts t s hst]; exact htrue)
      · rw [if_neg ht]
        exact process_reject_conflicting rest _ _ s hrnd.2
          (aset_keys_nodup acts t false hand) hsrest
          (by rw [aget_aset_other acts t s false hst]; exact htrue)

/-- Every serial in the action dictionary came from the accept or reject
set. -/
theorem process_reject_keys_origin (r : List Nat)
    (accept_set : List Nat) (confl : List Nat) (t : Nat)
    (h : t ∈ (process_reject r (fromkeys accept_set) confl).1.map
      (fun ab => ab.1)) :
    t ∈ accept_set ∨ t ∈ r := by
  by_contra hcon
  simp only [not_or] at hcon
  have hnone : aget (fromkeys accept_set) t = none := by
    rw [fromkeys_aget]
    rw [if_neg hcon.1]
  have := process_reject_stable_none r (fromkeys accept_set) confl t
    hcon.2 hnone
  exact (aget_eq_none _ t).mp this h

/-- The per-commission provision loop leaves holdings at keys none of its
provisions touch unchanged. -/
theorem resolve_provisions_hfind (a : Bool) (reason : String)
    (c : Commission) (key : HKey) :
    ∀ (provs : List ProvisionRow) (hs : List (HKey × Holding))
      (lg : List ProvisionLogRow) (hs' : List (HKey × Holding))
      (lg' : List ProvisionLogRow),
      (∀ pv ∈ provs, pv.holding_key ≠ key) →
      resolve_provisions a reason c provs hs lg = .ok (hs', lg') →
      hfind hs' key = hfind hs key
  | [], hs, lg, hs', lg', _, h => by
    simp only [resolve_provisions, Except.ok.injEq, Prod.mk.injEq] at h
    rw [← h.1]
  | pv :: rest, hs, lg, hs', lg', hkey, h => by
    simp only [resolve_provisions] at h
    match hf : hfind hs pv.holding_key with
    | none => simp [hf] at h
    | some hld =>
      simp only [hf] at h
      have ih := resolve_provisions_hfind a reason c key rest _ _ hs' lg'
        (fun p hp => hkey p (List.mem_cons_of_mem pv hp)) h
      rw [ih, hfind_hset_other hs pv.holding_key key _
        (fun hc => hkey pv (List.mem_cons_self pv rest) hc.symm)]

/-- Every log row appended by the per-commission provision loop stores the
`'ACCEPT:'/'REJECT:'` prefix followed by the last 121 characters of the
reason. -/
theorem resolve_provisions_log (a : Bool) (reason : String)
    (c : Commission) :
    ∀ (provs : List ProvisionRow) (hs : List (HKey × Holding))
      (lg : List ProvisionLogRow) (hs' : List (HKey × Holding))
      (lg' : List ProvisionLogRow),
      resolve_provisions a reason c provs hs lg = .ok (hs', lg') →
      ∀ row ∈ lg', row ∈ lg ∨
        row.reason = (if a then "ACCEPT:" else "REJECT:") ++
          reason.takeRight 121
  | [], hs, lg, hs', lg', h, row, hrow => by
    simp only [resolve_provisions, Except.ok.injEq, Prod.mk.injEq] at h
    rw [← h.2] at hrow
    exact Or.inl hrow
  | pv :: rest, hs, lg, hs', lg', h, row, hrow => by
    simp only [resolve_provisions] at h
    match hf : hfind hs pv.holding_key with
    | none => simp [hf] at h
    | some hld =>
      simp only [hf] at h
      have ih := resolve_provisions_log a reason c rest _ _ hs' lg' h row
        hrow
      rcases ih with hmem | hform
      · rcases List.mem_append.mp hmem with hmem | hmem
        · exact Or.inl hmem
        · simp only [List.mem_singleton] at hmem
          subst hmem
          exact Or.inr rfl
      · exact Or.inr hform

/-- The combined loop invariant of the `actions` resolution loop: result
lists only grow by action serials, rows of untouched serials survive,
holdings at unprovisioned keys stay, and every new log row carries the
prefixed truncated reason. -/
theorem resolve_actions_spec (ck : String) (reason : String) :
    ∀ (actions : List (Nat × Bool)) (acc acc' : ResolveAcc),
      resolve_actions ck reason actions acc = .ok acc' →
      (∀ s, s ∈ acc'.accepted →
        s ∈ acc.accepted ∨ s ∈ actions.map (fun ab => ab.1)) ∧
      (∀ s, s ∈ acc'.rejected →
        s ∈ acc.rejected ∨ s ∈ actions.map (fun ab => ab.1)) ∧
      (∀ c ∈ acc.commissions,
        c.serial ∉ actions.map (fun ab => ab.1) → c ∈ acc'.commissions) ∧
      (∀ pv ∈ acc.provisions,
        pv.serial ∉ actions.map (fun ab => ab.1) → pv ∈ acc'.provisions) ∧
      (∀ key : HKey,
        (∀ ab ∈ actions, ∀ pv ∈ acc.provisions,
          pv.serial = ab.1 → pv.holding_key ≠ key) →
        hfind acc'.holdings key = hfind acc.holdings key) ∧
      (∀ row ∈ acc'.provisionLog, row ∈ acc.provisionLog ∨
        row.reason = "ACCEPT:" ++ reason.takeRight 121 ∨
        row.reason = "REJECT:" ++ reason.takeRight 121)
  | [], acc, acc', h => by
    simp only [resolve_actions, Except.ok.injEq] at h
    subst h
    exact ⟨fun s hs => Or.inl hs, fun s hs => Or.inl hs,
      fun c hc _ => hc, fun pv hpv _ => hpv, fun key _ => rfl,
      fun row hrow => Or.inl hrow⟩
  | (serial, accept) :: rest, acc, acc', h => by
    simp only [resolve_actions] at h
    match hc : cfind acc.commissions ck serial with
    | none =>
      simp only [hc] at h
      have ih := resolve_actions_spec ck reason rest _ acc' h
      refine ⟨?_, ?_, ?_, ?_, ?_, ?_⟩
      · intro s hs
        rcases ih.1 s hs with h1 | h1
        · exact Or.inl h1
        · exact Or.inr (List.mem_cons_of_mem _ h1)
      · intro s hs
        rcases ih.2.1 s hs with h1 | h1
        · exact Or.inl h1
        · exact Or.inr (List.mem_cons_of_mem _ h1)
      · intro c hcm hns
        exact ih.2.2.1 c hcm
          (fun hmem => hns (List.mem_cons_of_mem _ hmem))
      · intro pv hpv hns
        exact ih.2.2.2.1 pv hpv
          (fun hmem => hns (List.mem_cons_of_mem _ hmem))
      · intro key hkey
        exact ih.2.2.2.2.1 key
          (fun ab hab pv hpv => hkey ab (List.mem_cons_of_mem _ hab) pv hpv)
      · exact ih.2.2.2.2.2
    | some commission =>
      simp only [hc] at h
      match hrp : resolve_provisions accept reason commission
          (acc.provisions.filter (fun p => p.serial = serial))
          acc.holdings acc.provisionLog with
      | .error e => simp [hrp] at h
      | .ok hslg =>
        simp only [hrp] at h
        have ih := resolve_actions_spec ck reason rest _ acc' h
        refine ⟨?_, ?_, ?_, ?_, ?_, ?_⟩
        · intro s hs
          rcases ih.1 s hs with h1 | h1
          · simp only [List.mem_append] at h1
            rcases h1 with h1 | h1
            · exact Or.inl h1
            · rcases accept with _ | _
              · simp at h1
              · simp at h1
                subst h1
                exact Or.inr (by simp)
          · exact Or.inr (List.mem_cons_of_mem _ h1)
        · intro s hs
          rcases ih.2.1 s hs with h1 | h1
          · simp only [List.mem_append] at h1
            rcases h1 with h1 | h1
            · exact Or.inl h1
            · rcases accept with _ | _
              · simp at h1
                subst h1
                exact Or.inr (by simp)
              · simp at h1
          · exact Or.inr (List.mem_cons_of_mem _ h1)
        · intro c hcm hns
          have hne : c.serial ≠ serial := by
            intro hcs
            exact hns (by simp [hcs])
          refine ih.2.2.1 c ?_
            (fun hmem => hns (List.mem_cons_of_mem _ hmem))
          simp only [List.mem_filter]
          exact ⟨hcm, by simp [hne]⟩
        · intro pv hpv hns
          have hne : pv.serial ≠ serial := by
            intro hcs
            exact hns (by simp [hcs])
          refine ih.2.2.2.1 pv ?_
            (fun hmem => hns (List.mem_cons_of_mem _ hmem))
          simp only [List.mem_filter]
          exact ⟨hpv, by simp [hne]⟩
        · intro key hkey
          have hstep : hfind hslg.1 key = hfind acc.holdings key := by
            refine resolve_provisions_hfind accept reason commission key
              (acc.provisions.filter (fun p => p.serial = serial))
              acc.holdings acc.provisionLog hslg.1 hslg.2 ?_ ?_
            · intro pv hpv
              obtain ⟨hpv1, hpv2⟩ := List.mem_filter.mp hpv
              exact hkey (serial, accept) (List.mem_cons_self _ _) pv hpv1
                (by simpa using hpv2)
            · rw [hrp]
          have hrest := ih.2.2.2.2.1 key ?_
          · simp only at hrest
            rw [hrest, hstep]
          · intro ab hab pv hpv hser
            obtain ⟨hpv1, _⟩ := List.mem_filter.mp hpv
            exact hkey ab (List.mem_cons_of_mem _ hab) pv hpv1 hser
        · intro row hrow
          rcases ih.2.2.2.2.2 row hrow with h1 | h1
          · simp only at h1
            have := resolve_provisions_log accept reason commission
              (acc.provisions.filter (fun p => p.serial = serial))
              acc.holdings acc.provisionLog hslg.1 hslg.2 (by rw [hrp]) row
              h1
            rcases this with h2 | h2
            · exact Or.inl h2
            · rcases accept with _ | _
              · exact Or.inr (Or.inr (by simpa using h2))
              · exact Or.inr (Or.inl (by simpa using h2))
          · exact Or.inr h1

/-- C2.  A serial appearing in both the accept set and the reject set is
returned as conflicting, is neither accepted nor rejected, keeps its
`Commission` and `Provision` rows (stays pending), and every holding only
its own provisions touch is left unchanged. -/
theorem resolve_conflicting_serial (st : QHState) (ck : String)
    (accept_set reject_set : List Nat) (reason : String) (s : Nat)
    (st' : QHState) (res : List Nat × List Nat × List Nat × List Nat)
    (ha : accept_set.Nodup) (hr : reject_set.Nodup)
    (hsa : s ∈ accept_set) (hsr : s ∈ reject_set)
    (hok : resolve_pending_commissions st ck accept_set reject_set reason =
      (st', .ok res)) :
    s ∈ res.2.2.2 ∧ s ∉ res.1 ∧ s ∉ res.2.1 ∧
    (∀ c ∈ st.commissions, c.serial = s → c ∈ st'.commissions) ∧
    (∀ pv ∈ st.provisions, pv.serial = s → pv ∈ st'.provisions) ∧
    (∀ key : HKey,
      (∀ pv ∈ st.provisions, pv.holding_key = key →
        pv.serial = s ∨ (pv.serial ∉ accept_set ∧ pv.serial ∉ reject_set)) →
      hfind st'.holdings key = hfind st.holdings key) := by
  have hgetTrue : aget (fromkeys accept_set) s = some true := by
    rw [fromkeys_aget, if_pos hsa]
  have hconf := process_reject_conflicting reject_set (fromkeys accept_set)
    [] s hr (fromkeys_keys_nodup accept_set) hsr hgetTrue
  have hskeys : s ∉ ((process_reject reject_set (fromkeys accept_set)
      []).1.map (fun ab => ab.1)) := (aget_eq_none _ s).mp hconf.1
  simp only [resolve_pending_commissions] at hok
  match hres : resolve_actions ck reason
      (process_reject reject_set (fromkeys accept_set) []).1
      ⟨st.holdings, st.commissions, st.provisions, st.provisionLog,
       [], [], []⟩ with
  | .error e =>
    rw [hres] at hok
    simp at hok
  | .ok acc =>
    rw [hres] at hok
    simp only [Prod.mk.injEq, Except.ok.injEq] at hok
    obtain ⟨hst', hres'⟩ := hok
    subst hst'
    subst hres'
    have spec := resolve_actions_spec ck reason
      (process_reject reject_set (fromkeys accept_set) []).1
      ⟨st.holdings, st.commissions, st.provisions, st.provisionLog,
       [], [], []⟩ acc hres
    refine ⟨hconf.2, ?_, ?_, ?_, ?_, ?_⟩
    · intro hmem
      rcases spec.1 s hmem with h1 | h1
      · simp at h1
      · exact hskeys h1
    · intro hmem
      rcases spec.2.1 s hmem with h1 | h1
      · simp at h1
      · exact hskeys h1
    · intro c hc hcs
      exact spec.2.2.1 c hc (hcs ▸ hskeys)
    · intro pv hpv hps
      exact spec.2.2.2.1 pv hpv (hps ▸ hskeys)
    · intro key hkey
      refine spec.2.2.2.2.1 key ?_
      intro ab hab pv hpv hser hkeq
      have habk : ab.1 ∈ ((process_reject reject_set (fromkeys accept_set)
          []).1.map (fun ab => ab.1)) :=
        List.mem_map_of_mem (fun ab => ab.1) hab
      rcases hkey pv hpv hkeq with h1 | h1
      · rw [h1] at hser
        exact hskeys (hser ▸ habk)
      · rcases process_reject_keys_origin reject_set accept_set [] ab.1
          habk with h2 | h2
        · rw [← hser] at h2
          exact h1.1 h2
        · rw [← hser] at h2
          exact h1.2 h2

/-- The state of the C2 and C9 witnesses: one pending commission (serial 1)
with a single import provision of 2 on the only holding. -/
def cexResolveState : QHState :=
  { holdings := [(("u", "s", "r"), ⟨10, 0, 2⟩)],
    commissions := [⟨1, "ck", "nm"⟩],
    provisions := [⟨1, "u", "s", "r", 2⟩],
    provisionLog := [], serialCounter := 2 }

set_option maxRecDepth 10000 in
/-- Witness for C2: resolving with serial 1 in both sets conflicts it and
changes nothing. -/
theorem resolve_conflicting_serial_witness :
    ([1].Nodup ∧ (1 : Nat) ∈ [1] ∧
      resolve_pending_commissions cexResolveState "ck" [1] [1] "hi" =
        (cexResolveState, .ok ([], [], [], [1]))) ∧
    ((1 : Nat) ∈ (([], [], [], [1]) :
        List Nat × List Nat × List Nat × List Nat).2.2.2 ∧
      (1 : Nat) ∉ (([], [], [], [1]) :
        List Nat × List Nat × List Nat × List Nat).1 ∧
      (1 : Nat) ∉ (([], [], [], [1]) :
        List Nat × List Nat × List Nat × List Nat).2.1 ∧
      (∀ c ∈ cexResolveState.commissions, c.serial = 1 →
        c ∈ cexResolveState.commissions) ∧
      (∀ pv ∈ cexResolveState.provisions, pv.serial = 1 →
        pv ∈ cexResolveState.provisions) ∧
      (∀ key : HKey,
        (∀ pv ∈ cexResolveState.provisions, pv.holding_key = key →
          pv.serial = 1 ∨ (pv.serial ∉ [1] ∧ pv.serial ∉ [1])) →
        hfind cexResolveState.holdings key =
          hfind cexResolveState.holdings key)) :=
  ⟨⟨by decide, by decide, rfl⟩,
    resolve_conflicting_serial cexResolveState "ck" [1] [1] "hi" 1
      cexResolveState ([], [], [], [1]) (by decide) (by decide)
      (by decide) (by decide) rfl⟩

set_option maxRecDepth 10000 in
/-- Counterexample to C9 as stated: resolving commission 1 with the reason
string `"hi"` (2 bytes, well under 128) stores `"ACCEPT:hi"` in the
`ProvisionLog` row — not the reason verbatim. -/
theorem resolve_reason_not_verbatim :
    ("hi" : String).length ≤ 128 ∧
    ((resolve_pending_commissions cexResolveState "ck" [1] []
      "hi").1.provisionLog.map (fun r => r.reason)) = ["ACCEPT:hi"] ∧
    ("ACCEPT:hi" : String) ≠ "hi" :=
  ⟨by decide, rfl, by decide⟩

/-- C9 (amended).  Every `ProvisionLog` row written by a resolution with
reason string `r` stores `'ACCEPT:'` or `'REJECT:'` followed by the last
121 bytes of `r` — so a reason of at most 121 bytes is recoverable verbatim
after the 7-byte prefix. -/
theorem resolve_reason_truncated (st : QHState) (ck : String)
    (accept_set reject_set : List Nat) (reason : String)
    (st' : QHState) (res : List Nat × List Nat × List Nat × List Nat)
    (hok : resolve_pending_commissions st ck accept_set reject_set reason =
      (st', .ok res)) :
    ∀ row ∈ st'.provisionLog, row ∈ st.provisionLog ∨
      row.reason = "ACCEPT:" ++ reason.takeRight 121 ∨
      row.reason = "REJECT:" ++ reason.takeRight 121 := by
  simp only [resolve_pending_commissions] at hok
  match hres : resolve_actions ck reason
      (process_reject reject_set (fromkeys accept_set) []).1
      ⟨st.holdings, st.commissions, st.provisions, st.provisionLog,
       [], [], []⟩ with
  | .error e =>
    rw [hres] at hok
    simp at hok
  | .ok acc =>
    rw [hres] at hok
    simp only [Prod.mk.injEq, Except.ok.injEq] at hok
    obtain ⟨hst', -⟩ := hok
    subst hst'
    have spec := resolve_actions_spec ck reason
      (process_reject reject_set (fromkeys accept_set) []).1
      ⟨st.holdings, st.commissions, st.provisions, st.provisionLog,
       [], [], []⟩ acc hres
    exact spec.2.2.2.2.2

/-- The state after the C9 witness resolution. -/
def cexResolveStateAfter : QHState :=
  { holdings := [(("u", "s", "r"), ⟨10, 2, 2⟩)],
    commissions := [], provisions := [],
    provisionLog := [⟨1, "nm", "u", "s", "r", 10, 2, 2, 2, "ACCEPT:hi"⟩],
    serialCounter := 2 }

set_option maxRecDepth 10000 in
/-- Witness for C9 at a concrete accepted commission. -/
theorem resolve_reason_truncated_witness :
    (resolve_pending_commissions cexResolveState "ck" [1] [] "hi" =
      (cexResolveStateAfter, .ok ([1], [], [], []))) ∧
    (∀ row ∈ cexResolveStateAfter.provisionLog,
      row ∈ cexResolveState.provisionLog ∨
      row.reason = "ACCEPT:" ++ ("hi" : String).takeRight 121 ∨
      row.reason = "REJECT:" ++ ("hi" : String).takeRight 121) :=
  ⟨rfl,
    resolve_reason_truncated cexResolveState "ck" [1] [] "hi"
      cexResolveStateAfter ([1], [], [], []) rfl⟩

end Quotaholder

namespace Cyclades

theorem foldl_min_le_init : ∀ (xs : List Nat) (x : Nat), xs.foldl min x ≤ x
  | [], _ => le_rfl
  | y :: ys, x =>
    le_trans (foldl_min_le_init ys (min x y)) (min_le_left x y)

theorem foldl_min_le_mem :
    ∀ (xs : List Nat) (x y : Nat), y ∈ xs → xs.foldl min x ≤ y
  | z :: zs, x, y, h => by
    rcases List.mem_cons.mp h with rfl | hy
    · exact le_trans (foldl_min_le_init zs (min x y)) (min_le_right x y)
    · exact foldl_min_le_mem zs (min x z) y hy

theorem listMin_le {l : List Nat} {s : Nat} (h : s ∈ l) : listMin l ≤ s := by
  match l, h with
  | x :: xs, h =>
    rcases List.mem_cons.mp h with rfl | hs
    · exact foldl_min_le_init xs s
    · exact foldl_min_le_mem xs x s hs

theorem serial_unique :
    ∀ (l : List QuotaHolderSerial),
      (l.map (fun r => r.serial)).Nodup →
      ∀ r ∈ l, ∀ r' ∈ l, r.serial = r'.serial → r = r'
  | [], _, _, hr, _, _, _ => absurd hr (List.not_mem_nil _)
  | a :: l, hnd, r, hr, r', hr', heq => by
    simp only [List.map_cons, List.nodup_cons] at hnd
    have hmem : ∀ x ∈ l, x.serial ≠ a.serial := by
      intro x hx hxa
      exact hnd.1 (hxa ▸ List.mem_map_of_mem (fun t => t.serial) hx)
    rcases List.mem_cons.mp hr with h1 | h1 <;>
      rcases List.mem_cons.mp hr' with h2 | h2
    · rw [h1, h2]
    · rw [h1] at heq
      exact absurd heq.symm (hmem r' h2)
    · rw [h2] at heq
      exact absurd heq (hmem r h1)
    · exact serial_unique l hnd.2 r h1 r' h2 heq

/-- C3.  The Cyclades reconciler `resolve_pending_commissions` classifies
every remote pending serial: serials recorded locally as resolved
(`pending=False`) and accepted go to the accept list; serials absent from
the local table, and serials recorded locally as resolved and rejected, go
to the reject list; and the outcome only consults local records with serial
at least the smallest remote pending serial. -/
theorem cyclades_resolve_classifies (localTable : List QuotaHolderSerial)
    (qh_pending : List Nat) (s : Nat)
    (hnd : (localTable.map (fun r => r.serial)).Nodup)
    (hs : s ∈ qh_pending) :
    ((∃ r ∈ localTable, r.serial = s ∧ r.pending = false ∧ r.accept = true) →
      s ∈ (resolve_pending_commissions localTable qh_pending).1) ∧
    ((∀ r ∈ localTable, r.serial ≠ s) →
      s ∉ (resolve_pending_commissions localTable qh_pending).1 ∧
      s ∈ (resolve_pending_commissions localTable qh_pending).2) ∧
    ((∃ r ∈ localTable, r.serial = s ∧ r.pending = false ∧
        r.accept = false) →
      s ∉ (resolve_pending_commissions localTable qh_pending).1 ∧
      s ∈ (resolve_pending_commissions localTable qh_pending).2) ∧
    (resolve_pending_commissions localTable qh_pending =
      resolve_pending_commissions
        (localTable.filter (fun r => decide (listMin qh_pending ≤ r.serial)))
        qh_pending) := by
  have hne : qh_pending ≠ [] := by
    rintro rfl
    exact absurd hs (List.not_mem_nil s)
  have h1 : (resolve_pending_commissions localTable qh_pending).1 =
      ((((localTable.filter (fun r =>
          decide (listMin qh_pending ≤ r.serial) &&
            decide (r.pending = false))).filter
        (fun r => r.accept)).map (fun r => r.serial)).filter
        (fun s => decide (s ∈ qh_pending))) := by
    simp only [resolve_pending_commissions, if_neg hne]
  have h2 : (resolve_pending_commissions localTable qh_pending).2 =
      qh_pending.dedup.filter (fun s =>
        decide (s ∉ ((((localTable.filter (fun r =>
          decide (listMin qh_pending ≤ r.serial) &&
            decide (r.pending = false))).filter
          (fun r => r.accept)).map (fun r => r.serial)).filter
          (fun s => decide (s ∈ qh_pending))))) := by
    simp only [resolve_pending_commissions, if_neg hne]
  have hmem_acc :
      ∀ x, x ∈ (resolve_pending_commissions localTable qh_pending).1 ↔
        (∃ r ∈ localTable,
          r.serial = x ∧ r.pending = false ∧ r.accept = true ∧
          listMin qh_pending ≤ r.serial) ∧ x ∈ qh_pending := by
    intro x
    rw [h1]
    constructor
    · intro hmem
      obtain ⟨hmap, hq⟩ := List.mem_filter.mp hmem
      obtain ⟨r, hrf, hser⟩ := List.mem_map.mp hmap
      obtain ⟨hrf1, hacc⟩ := List.mem_filter.mp hrf
      obtain ⟨hr, hc1⟩ := List.mem_filter.mp hrf1
      simp only [Bool.and_eq_true, decide_eq_true_eq] at hc1 hq
      exact ⟨⟨r, hr, hser, hc1.2, hacc, hc1.1⟩, hq⟩
    · rintro ⟨⟨r, hr, rfl, hpend, hacc, hmin⟩, hq⟩
      refine List.mem_filter.mpr ⟨List.mem_map.mpr
        ⟨r, List.mem_filter.mpr ⟨List.mem_filter.mpr ⟨hr, ?_⟩, hacc⟩, rfl⟩, ?_⟩
      · simp [hmin, hpend]
      · simpa using hq
  have hmem_rej :
      ∀ x, x ∈ (resolve_pending_commissions localTable qh_pending).2 ↔
        x ∈ qh_pending ∧
          x ∉ (resolve_pending_commissions localTable qh_pending).1 := by
    intro x
    rw [h2, h1]
    constructor
    · intro hmem
      obtain ⟨hd, hnot⟩ := List.mem_filter.mp hmem
      simp only [decide_eq_true_eq] at hnot
      exact ⟨List.mem_dedup.mp hd, hnot⟩
    · rintro ⟨hq, hnot⟩
      exact List.mem_filter.mpr ⟨List.mem_dedup.mpr hq, by simpa using hnot⟩
  refine ⟨?_, ?_, ?_, ?_⟩
  · rintro ⟨r, hr, rfl, hpend, hacc⟩
    exact (hmem_acc r.serial).mpr
      ⟨⟨r, hr, rfl, hpend, hacc, listMin_le hs⟩, hs⟩
  · intro habs
    have hnotacc :
        s ∉ (resolve_pending_commissions localTable qh_pending).1 := by
      intro hmem
      rcases ((hmem_acc s).mp hmem).1 with ⟨r, hr, hser, -⟩
      exact habs r hr hser
    exact ⟨hnotacc, (hmem_rej s).mpr ⟨hs, hnotacc⟩⟩
  · rintro ⟨r, hr, hser, hpend, hacc⟩
    have hnotacc :
        s ∉ (resolve_pending_commissions localTable qh_pending).1 := by
      intro hmem
      rcases ((hmem_acc s).mp hmem).1 with ⟨r', hr', hser', -, hacc', -⟩
      have hrr := serial_unique localTable hnd r hr r' hr'
        (hser.trans hser'.symm)
      rw [hrr, hacc'] at hacc
      exact Bool.noConfusion hacc
    exact ⟨hnotacc, (hmem_rej s).mpr ⟨hs, hnotacc⟩⟩
  · have hfilter : localTable.filter (fun r =>
        decide (listMin qh_pending ≤ r.serial) &&
          decide (r.pending = false)) =
        (localTable.filter (fun r =>
          decide (listMin qh_pending ≤ r.serial))).filter (fun r =>
            decide (listMin qh_pending ≤ r.serial) &&
              decide (r.pending = false)) := by
      rw [List.filter_filter]
      apply List.filter_congr
      intro r _
      by_cases hmin : listMin qh_pending ≤ r.serial <;>
        by_cases hpend : r.pending = false <;>
          simp [hmin, hpend]
    simp only [resolve_pending_commissions, if_neg hne]
    rw [hfilter]

/-- Witness for C3 at a concrete table and pending set: serial 5 is locally
resolved-accepted, serial 6 is absent locally, serial 7 is locally
resolved-rejected. -/
theorem cyclades_resolve_classifies_witness :
    ((⟨5, false, true⟩ : QuotaHolderSerial) ∈
        [(⟨5, false, true⟩ : QuotaHolderSerial), ⟨7, false, false⟩] ∧
      (5 : Nat) ∈ [5, 6, 7]) ∧
    (5 : Nat) ∈ (resolve_pending_commissions
      [⟨5, false, true⟩, ⟨7, false, false⟩] [5, 6, 7]).1 := by
  refine ⟨⟨by decide, by decide⟩, ?_⟩
  exact (cyclades_resolve_classifies
      [⟨5, false, true⟩, ⟨7, false, false⟩] [5, 6, 7] 5
      (by decide) (by decide)).1 ⟨⟨5, false, true⟩, by decide, rfl, rfl, rfl⟩

end Cyclades

namespace PithosHashMap

/-- The doubling loop started at `2 ^ k` stops at `2` to the max of `k` and
`⌈log₂ n⌉`. -/
theorem hash_pow_loop_pow (n : Nat) (hn : 2 ≤ n) (k : Nat) (hk : 1 ≤ k) :
    hash_pow_loop n (2 ^ k) = 2 ^ max k (Nat.clog 2 n) := by
  rw [hash_pow_loop]
  by_cases h : 2 ^ k < n
  · have hpos : 0 < 2 ^ k := pow_pos (by norm_num) k
    rw [dif_pos ⟨hpos, h⟩]
    have h2 : 2 * 2 ^ k = 2 ^ (k + 1) := by
      rw [pow_succ]; ring
    rw [h2, hash_pow_loop_pow n hn (k + 1) (by omega)]
    have hkc : k + 1 ≤ Nat.clog 2 n := by
      by_contra hcon
      have hle : Nat.clog 2 n ≤ k := by omega
      have := (Nat.le_pow_iff_clog_le (by norm_num : 1 < 2)).mpr hle
      omega
    rw [Nat.max_eq_right hkc, Nat.max_eq_right (le_trans (by omega) hkc)]
  · rw [dif_neg (fun hc => absurd hc.2 h)]
    have hcl : Nat.clog 2 n ≤ k :=
      (Nat.le_pow_iff_clog_le (by norm_num : 1 < 2)).mp (by omega)
    rw [Nat.max_eq_left hcl]
termination_by n - 2 ^ k
decreasing_by
  have h2 : (2 : Nat) ^ (k + 1) = 2 * 2 ^ k := by
    rw [pow_succ]; ring
  have hpos : 0 < 2 ^ k := pow_pos (by norm_num) k
  omega

/-- The source's `s = 2; while s < len: s *= 2` loop computes the least power
of two that is at least `len`, namely `2 ^ ⌈log₂ len⌉`, for `len ≥ 2`. -/
theorem hash_pow_loop_clog (n : Nat) (hn : 2 ≤ n) :
    hash_pow_loop n 2 = 2 ^ Nat.clog 2 n := by
  have h := hash_pow_loop_pow n hn 1 le_rfl
  rw [pow_one] at h
  rw [h]
  have h1 : 1 ≤ Nat.clog 2 n := by
    by_contra hcon
    have hle : Nat.clog 2 n ≤ 0 := by omega
    have := (Nat.le_pow_iff_clog_le (by norm_num : 1 < 2)).mpr hle
    simp only [pow_zero] at this
    omega
  rw [Nat.max_eq_right h1]

/-- C4.  `HashMap.hash` returns `H("")` on the empty sequence, the single
block's hash on a one-element sequence, and otherwise pads the sequence with
zero-hashes of the same length to the next power of two — the least power of
two at least the sequence length — and folds adjacent pairs with
`H(left ++ right)` level by level until one hash remains. -/
theorem hashmap_hash_tree (H : Digest → Digest) (l : List Digest) :
    (l = [] → hashmap_hash H l = H []) ∧
    (∀ x, l = [x] → hashmap_hash H l = x) ∧
    (2 ≤ l.length →
      l.length ≤ 2 ^ Nat.clog 2 l.length ∧
      (∀ j, l.length ≤ 2 ^ j → 2 ^ Nat.clog 2 l.length ≤ 2 ^ j) ∧
      hashmap_hash H l =
        (hash_levels H (l ++ List.replicate
            (2 ^ Nat.clog 2 l.length - l.length)
            (List.replicate l.headI.length 0))).headI) := by
  refine ⟨?_, ?_, ?_⟩
  · rintro rfl
    simp [hashmap_hash]
  · rintro x rfl
    simp [hashmap_hash]
  · intro hlen
    refine ⟨Nat.le_pow_clog (by norm_num) _, ?_, ?_⟩
    · intro j hj
      exact Nat.pow_le_pow_right (by norm_num)
        ((Nat.le_pow_iff_clog_le (by norm_num)).mp hj)
    · have h0 : ¬l.length = 0 := by omega
      have h1 : ¬l.length = 1 := by omega
      simp only [hashmap_hash, if_neg h0, if_neg h1]
      rw [hash_pow_loop_clog l.length hlen]

/-- A concrete combiner used to instantiate `hashmap_hash_tree`. -/
def witnessCombine (d : Digest) : Digest := [d.sum + 100]

/-- Witness for C4 on a three-block hashmap (padded to four). -/
theorem hashmap_hash_tree_witness :
    2 ≤ ([[1], [2], [3]] : List Digest).length ∧
    hashmap_hash witnessCombine [[1], [2], [3]] =
      (hash_levels witnessCombine ([[1], [2], [3]] ++ List.replicate
          (2 ^ Nat.clog 2 ([[1], [2], [3]] : List Digest).length -
            ([[1], [2], [3]] : List Digest).length)
          (List.replicate
            ([[1], [2], [3]] : List Digest).headI.length 0))).headI :=
  ⟨by decide,
    ((hashmap_hash_tree witnessCombine [[1], [2], [3]]).2.2 (by decide)).2.2⟩

end PithosHashMap

namespace Availability

/-- Counterexample to C8 as stated: a read of an unavailable version within
`map_check_interval` (5s) of the recorded check (at 10, now 12) fails
`NotAllowed` — not `IllegalOperation` — and does not flip `available` even
though the backend holds the map. -/
theorem update_available_throttled_counterexample :
    (_update_available 5 12 (some ["h"]) ⟨false, some 10⟩).2 =
      AResult.notAllowed ∧
    (_update_available 5 12 (some ["h"]) ⟨false, some 10⟩).1.available =
      false ∧
    (_update_available 5 12 none ⟨false, some 10⟩).2 ≠
      AResult.illegalOperation := by
  decide

/-- C8 (amended).  Reading a version with `available = false`: if a check
was recorded less than `map_check_interval` ago, the read fails `NotAllowed`
with the state unchanged and without consulting the backend (the result does
not depend on the backend's answer); otherwise, if the backend does not hold
the map, `map_check_timestamp` is set to now and the read fails
`IllegalOperation`, and if it does, `available` flips to true and the read
succeeds with the map. -/
theorem update_available_characterization (interval now : Int)
    (backendMap : Option (List String)) (p : AProps)
    (hp : p.available = false) :
    ((truthyTs p.map_check_timestamp = true ∧
        now - p.map_check_timestamp.getD 0 < interval) →
      _update_available interval now backendMap p = (p, .notAllowed) ∧
      ∀ b', _update_available interval now b' p =
        _update_available interval now backendMap p) ∧
    (¬(truthyTs p.map_check_timestamp = true ∧
        now - p.map_check_timestamp.getD 0 < interval) →
      (backendMap = none →
        _update_available interval now backendMap p =
          ({ p with map_check_timestamp := some now }, .illegalOperation)) ∧
      (∀ m, backendMap = some m →
        _update_available interval now backendMap p =
          ({ p with available := true, map_check_timestamp := some now },
           .ok m))) := by
  constructor
  · rintro ⟨ht, hw⟩
    have hcond : (!p.available && truthyTs p.map_check_timestamp &&
        decide (now - p.map_check_timestamp.getD 0 < interval)) = true := by
      simp [hp, ht, hw]
    constructor
    · simp [_update_available, hcond]
    · intro b'
      simp [_update_available, hcond]
  · intro hnot
    have hcond : (!p.available && truthyTs p.map_check_timestamp &&
        decide (now - p.map_check_timestamp.getD 0 < interval)) = false := by
      rcases Decidable.em (truthyTs p.map_check_timestamp = true) with ht | ht
      · have hw : ¬(now - p.map_check_timestamp.getD 0 < interval) :=
          fun hw => hnot ⟨ht, hw⟩
        simp [hp, ht, hw]
      · simp [hp, Bool.eq_false_iff.mpr ht]
    constructor
    · rintro rfl
      simp [_update_available, hcond]
    · rintro m rfl
      simp [_update_available, hcond]

/-- Witness for C8 at concrete inputs: a throttled read (check recorded at
10, now 12, interval 5) fails `NotAllowed` and leaves the state unchanged. -/
theorem update_available_characterization_witness :
    ((⟨false, some 10⟩ : AProps).available = false ∧
      truthyTs (⟨false, some 10⟩ : AProps).map_check_timestamp = true ∧
      (12 : Int) - (⟨false, some 10⟩ : AProps).map_check_timestamp.getD 0 <
        5) ∧
    _update_available 5 12 none ⟨false, some 10⟩ =
      (⟨false, some 10⟩, .notAllowed) :=
  ⟨⟨by decide, by decide, by decide⟩,
    ((update_available_characterization 5 12 none ⟨false, some 10⟩
      (by decide)).1 ⟨by decide, by decide⟩).1⟩

end Availability

namespace Listing

/-- The environment of the C10 counterexample: the permission index grants
the foreign user one path, and the container exists. -/
def cexLEnv : LEnv :=
  { access_list_paths := ["a/c/o"], access_list_shared := [],
    public_list := [], container := some 1, props := ["o"],
    public_props := [] }

/-- Counterexample to C10 as stated: a cross-account listing with the
point-in-time parameter `until = 0` supplied does not fail up front — the
permission index and the container are consulted (Python treats `0` as
falsy), and the listing succeeds. -/
theorem list_objects_until_zero_counterexample :
    ("u" : String) ≠ "a" ∧
    LEvent.permissionLookup ∈
      (_list_objects cexLEnv "u" "a" false false (some 0) none 10).2 ∧
    LEvent.containerLookup ∈
      (_list_objects cexLEnv "u" "a" false false (some 0) none 10).2 ∧
    (_list_objects cexLEnv "u" "a" false false (some 0) none 10).1 =
      .ok ["o"] := by
  refine ⟨by decide, by decide, by decide, rfl⟩

/-- C10 (amended).  A cross-account object listing with a truthy (non-`None`,
nonzero) `until` fails `NotAllowed` immediately: no permission lookup and no
container lookup is performed (the event trace is empty). -/
theorem list_objects_until_gate (env : LEnv) (user account : String)
    (shared public : Bool) (until_ : Option Int) (marker : Option String)
    (limit : Nat) (hu : user ≠ account) (ht : until_truthy until_ = true) :
    _list_objects env user account shared public until_ marker limit =
      (.error .notAllowed, []) := by
  simp only [_list_objects, if_pos (And.intro hu ht)]

/-- Witness for C10 at concrete inputs. -/
theorem list_objects_until_gate_witness :
    (("u" : String) ≠ "a" ∧ until_truthy (some 3) = true) ∧
    _list_objects cexLEnv "u" "a" false false (some 3) none 10 =
      (.error .notAllowed, []) :=
  ⟨⟨by decide, by decide⟩,
    list_objects_until_gate cexLEnv "u" "a" false false (some 3) none 10
      (by decide) (by decide)⟩

end Listing

namespace UpdateHashmap

/-- The environment of the C5 theorems. -/
def cexUEnv : UEnv :=
  { empty_block_hash := "e", root_hash := fun _ => "r", update_ok := true,
    dest_version := 7 }

/-- Counterexample to C5 as stated: a zero-size call whose hashmap argument
references an absent block hash does not fail — the argument hashmap is
replaced by the freshly stored empty block, so the call succeeds. -/
theorem update_object_hashmap_zero_counterexample :
    ("dead" : String) ∉ ([] : List String) ∧
    (update_object_hashmap cexUEnv [] 0 ["dead"]).1 = .ok (7, "r") := by
  constructor
  · decide
  · rfl

/-- C5 (amended).  A call to `update_object_hashmap` with nonzero size and no
Archipelago hash, whose hashmap references at least one block hash absent
from the block store, fails carrying exactly the list of missing hashes,
with an empty effect trace — in particular before any version is created,
any metadata is written, or any commission is issued — and with the block
store unchanged. -/
theorem update_object_hashmap_missing (env : UEnv) (store : List String)
    (size : Int) (hashmap : List String) (hsz : size ≠ 0)
    (harch : ∀ h ∈ hashmap, h.startsWith "archip_" = false)
    (hmiss : hashmap.filter (fun h => h ∉ store) ≠ []) :
    update_object_hashmap env store size hashmap =
      (.error (.missingBlocks (hashmap.filter (fun h => h ∉ store))),
       [], store) := by
  have hany : hashmap.any (fun h => h.startsWith "archip_") = false := by
    rw [List.any_eq_false]
    intro h hh
    simp [harch h hh]
  simp only [update_object_hashmap, hany, Bool.false_eq_true, if_false,
    if_neg hsz, if_pos hmiss]

/-- Witness for C5 at concrete inputs: block `"b"` is missing. -/
theorem update_object_hashmap_missing_witness :
    ((1 : Int) ≠ 0 ∧
      (∀ h ∈ ["a", "b"], String.startsWith h "archip_" = false) ∧
      ["a", "b"].filter (fun h => h ∉ ["a"]) ≠ []) ∧
    update_object_hashmap cexUEnv ["a"] 1 ["a", "b"] =
      (.error (.missingBlocks (["a", "b"].filter (fun h => h ∉ ["a"]))),
       [], ["a"]) :=
  ⟨⟨by decide, by decide, by decide⟩,
    update_object_hashmap_missing cexUEnv ["a"] 1 ["a", "b"]
      (by decide) (by decide) (by decide)⟩

end UpdateHashmap

namespace Access

theorem pathLeads_length {p q : Path} (h : pathLeads p q = true) :
    p.length ≤ q.length ∧ (p.length = q.length → p = q) := by
  simp only [pathLeads, decide_eq_true_eq] at h
  constructor
  · have := congrArg List.length h
    simp only [List.length_take] at this
    omega
  · intro hlen
    rw [← h, hlen, List.take_length]

theorem pathLeads_self (p : Path) : pathLeads p p = true := by
  simp [pathLeads, List.take_length]

theorem mem_insertDesc {a p : Path} :
    ∀ {l : List Path}, a ∈ insertDesc p l ↔ a = p ∨ a ∈ l
  | [] => by simp [insertDesc]
  | q :: rest => by
    simp only [insertDesc]
    by_cases h : q.length ≤ p.length
    · simp [h]
    · simp only [if_neg h, List.mem_cons, mem_insertDesc (l := rest)]
      tauto

theorem mem_sortDesc {a : Path} :
    ∀ {l : List Path}, a ∈ sortDesc l ↔ a ∈ l
  | [] => Iff.rfl
  | p :: rest => by
    simp only [sortDesc, mem_insertDesc, mem_sortDesc (l := rest),
      List.mem_cons]

theorem pairwise_insertDesc {p : Path} :
    ∀ {l : List Path}, l.Pairwise (fun a b => b.length ≤ a.length) →
      (insertDesc p l).Pairwise (fun a b => b.length ≤ a.length)
  | [], _ => by simp [insertDesc]
  | q :: rest, h => by
    obtain ⟨hq, hrest⟩ := List.pairwise_cons.mp h
    simp only [insertDesc]
    by_cases hle : q.length ≤ p.length
    · rw [if_pos hle]
      refine List.pairwise_cons.mpr ⟨?_, h⟩
      intro b hb
      rcases List.mem_cons.mp hb with rfl | hb
      · exact hle
      · exact le_trans (hq b hb) hle
    · rw [if_neg hle]
      refine List.pairwise_cons.mpr ⟨?_, pairwise_insertDesc hrest⟩
      intro b hb
      rcases mem_insertDesc.mp hb with rfl | hb
      · omega
      · exact hq b hb

theorem pairwise_sortDesc :
    ∀ (l : List Path),
      (sortDesc l).Pairwise (fun a b => b.length ≤ a.length)
  | [] => List.Pairwise.nil
  | p :: rest => pairwise_insertDesc (pairwise_sortDesc rest)

/-- If a permission record exists at the object's own path, the governing
permission path computed by `_get_permissions_path` is that path itself. -/
theorem get_permissions_path_self (entries : List PermEntry)
    (nodeType : Path → Option String) (path : Path) (e : PermEntry)
    (hmem : e ∈ entries) (hpath : e.path = path) :
    _get_permissions_path entries nodeType path = some path := by
  have hin : path ∈ access_inherit entries path := by
    apply List.mem_filter.mpr
    refine ⟨?_, pathLeads_self path⟩
    exact hpath ▸ List.mem_map_of_mem (fun en => en.path) hmem
  have hbound : ∀ p ∈ access_inherit entries path,
      p.length ≤ path.length ∧ (p.length = path.length → p = path) := by
    intro p hp
    exact pathLeads_length (List.mem_filter.mp hp).2
  unfold _get_permissions_path
  have hmemSort : path ∈ sortDesc (access_inherit entries path) :=
    mem_sortDesc.mpr hin
  have hboundSort : ∀ p ∈ sortDesc (access_inherit entries path),
      p.length ≤ path.length ∧ (p.length = path.length → p = path) :=
    fun p hp => hbound p (mem_sortDesc.mp hp)
  have hsorted := pairwise_sortDesc (access_inherit entries path)
  match hps : sortDesc (access_inherit entries path) with
  | [] => rw [hps] at hmemSort; exact absurd hmemSort (List.not_mem_nil _)
  | h :: t =>
    rw [hps] at hmemSort hboundSort hsorted
    have hhead : h = path := by
      rcases List.mem_cons.mp hmemSort with h1 | h1
      · exact h1.symm
      · by_contra hne
        have hlt : h.length < path.length := by
          have := hboundSort h (List.mem_cons_self h t)
          rcases Nat.lt_or_ge h.length path.length with hl | hl
          · exact hl
          · exact absurd (this.2 (by omega)) hne
        have := (List.pairwise_cons.mp hsorted).1 path h1
        omega
    rw [hhead]
    simp [perm_path_scan]

/-- Counterexample to C7 as stated: the user `"u"` holds `write` permission
on the object path `a/c/o`, so the PUT/POST permission check passes, yet
`delete_object` (a DELETE) fails `NotAllowed` because the code requires the
requesting user to be the owning account. -/
theorem delete_write_permission_counterexample :
    _can_write_object [⟨["a", "c", "o"], [], ["u"]⟩] (fun _ => none)
      "u" "a" ["c", "o"] = true ∧
    delete_object_gate "u" "a" = false := by
  constructor
  · rfl
  · decide

/-- C7 (amended).  A principal granted `write` permission on an object's
path passes the permission check of the PUT path
(`update_object_hashmap` → `_update_object_hash`, without a permissions
argument) and of the POST path (`update_object_meta`), both via
`_can_write_object`; but DELETE (`delete_object` → `_delete_object`)
additionally requires the principal to be the owning account and fails
`NotAllowed` for any other principal, write permission notwithstanding. -/
theorem write_permission_matrix (entries : List PermEntry)
    (nodeType : Path → Option String) (user account : String) (rest : Path)
    (e : PermEntry)
    (hfind : entries.find? (fun en => en.path = account :: rest) = some e)
    (hw : user ∈ e.write) :
    _can_write_object entries nodeType user account rest = true ∧
    update_object_meta_gate entries nodeType user account rest = true ∧
    update_object_hash_gate entries nodeType false user account rest = true ∧
    (user ≠ account → delete_object_gate user account = false) := by
  have hcw : _can_write_object entries nodeType user account rest = true := by
    unfold _can_write_object
    by_cases hu : user = account
    · rw [if_pos hu]
    · rw [if_neg hu]
      have hmem : e ∈ entries := List.mem_of_find?_eq_some hfind
      have hpath : e.path = account :: rest := by
        have := List.find?_some hfind
        simpa using this
      rw [get_permissions_path_self entries nodeType (account :: rest) e
        hmem hpath]
      simp only [access_check, hfind]
      simp [hw]
  refine ⟨hcw, hcw, ?_, ?_⟩
  · simp only [update_object_hash_gate, Bool.false_and, Bool.false_eq_true,
      if_false]
    exact hcw
  · intro hu
    simp [delete_object_gate, hu]

/-- Witness for C7 at concrete inputs: user `"u"` has write permission on
`a/c/o` and is not the account `"a"`. -/
theorem write_permission_matrix_witness :
    (([⟨["a", "c", "o"], [], ["u"]⟩] :
        List PermEntry).find? (fun en => en.path = "a" :: ["c", "o"]) =
          some ⟨["a", "c", "o"], [], ["u"]⟩ ∧
      ("u" : String) ∈ (⟨["a", "c", "o"], [], ["u"]⟩ : PermEntry).write) ∧
    update_object_meta_gate [⟨["a", "c", "o"], [], ["u"]⟩] (fun _ => none)
      "u" "a" ["c", "o"] = true ∧
    delete_object_gate "u" "a" = false :=
  ⟨⟨by decide, by decide⟩,
    (write_permission_matrix [⟨["a", "c", "o"], [], ["u"]⟩] (fun _ => none)
      "u" "a" ["c", "o"] ⟨["a", "c", "o"], [], ["u"]⟩
      (by decide) (by decide)).2.1,
    (write_permission_matrix [⟨["a", "c", "o"], [], ["u"]⟩] (fun _ => none)
      "u" "a" ["c", "o"] ⟨["a", "c", "o"], [], ["u"]⟩
      (by decide) (by decide)).2.2.2 (by decide)⟩

end Access

namespace Versions

theorem nfind_nset_self (l : List (Nat × Version)) (n : Nat) (v : Version) :
    nfind (nset l n v) n = some v := by
  induction l with
  | nil => simp [nset, nfind]
  | cons e rest ih =>
    by_cases h : e.1 = n
    · simp [nset, nfind, h]
    · simp only [nset]
      rw [if_neg h]
      simp only [nfind]
      rw [if_neg h]
      exact ih

theorem nfind_nset_other (l : List (Nat × Version)) (n m : Nat) (v : Version)
    (h : m ≠ n) : nfind (nset l n v) m = nfind l m := by
  induction l with
  | nil =>
    simp only [nset, nfind]
    rw [if_neg (fun hc => h hc.symm)]
  | cons e rest ih =>
    by_cases he : e.1 = n
    · simp only [nset]
      rw [if_pos he]
      simp only [nfind]
      rw [if_neg (fun hc => h hc.symm), if_neg (he ▸ fun hc => h hc.symm)]
    · simp only [nset]
      rw [if_neg he]
      simp only [nfind]
      by_cases hm : e.1 = m
      · rw [if_pos hm, if_pos hm]
      · rw [if_neg hm, if_neg hm]
        exact ih

theorem nfind_ndel_other (l : List (Nat × Version)) (n m : Nat)
    (h : m ≠ n) : nfind (ndel l n) m = nfind l m := by
  induction l with
  | nil => simp [ndel, nfind]
  | cons e rest ih =>
    by_cases he : e.1 = n
    · simp only [ndel]
      rw [if_pos he]
      simp only [nfind]
      rw [if_neg (he ▸ fun hc => h hc.symm)]
    · simp only [ndel]
      rw [if_neg he]
      simp only [nfind]
      by_cases hm : e.1 = m
      · rw [if_pos hm, if_pos hm]
      · rw [if_neg hm, if_neg hm]
        exact ih

theorem nfind_mem {l : List (Nat × Version)} {n : Nat} {v : Version}
    (h : nfind l n = some v) : (n, v) ∈ l := by
  induction l with
  | nil => simp [nfind] at h
  | cons e rest ih =>
    simp only [nfind] at h
    by_cases he : e.1 = n
    · rw [if_pos he] at h
      have hv : e.2 = v := Option.some_injective _ h
      have he2 : e = (n, v) := by
        cases e
        simp only at he hv
        rw [he, hv]
      rw [← he2]
      exact List.mem_cons_self e rest
    · rw [if_neg he] at h
      exact List.mem_cons_of_mem e (ih h)

theorem nfind_recluster_other (t : Tree) (node : Nat) (pre : Option Nat)
    (m : Nat) (hm : m ≠ node) :
    nfind (recluster t node pre).1 m = nfind t.normal m := by
  rcases pre with _ | p
  · rfl
  · simp only [recluster]
    rcases hv : nfind t.normal node with _ | q
    · rfl
    · exact nfind_ndel_other t.normal node m hm

/-- The tree produced by `_put_version_duplicate` holds the freshly created
NORMAL version at `node` when `cluster = NORMAL`, with the uuid dictated by
`is_copy` and the presence of a source version. -/
theorem put_version_duplicate_normal (t : Tree) (node : Nat)
    (sn : Option Nat) (sz : Option Int) (ty : Option String)
    (hs : Option String) (cks : Option String) (icopy av ka : Bool) :
    (nfind ((_put_version_duplicate t node sn sz ty hs cks 0 icopy av
        ka).2.2).normal node).map (fun v' => (v'.serial, v'.uuid)) =
      some (t.nextSerial,
        match nfind t.normal (sn.getD node) with
        | some p => if icopy then t.nextUuid else p.uuid
        | none => t.nextUuid) := by
  match hv : nfind t.normal (sn.getD node) with
  | some p =>
    simp only [_put_version_duplicate, hv, eq_self_iff_true, if_true]
    rw [nfind_nset_self]
    cases icopy <;> simp
  | none =>
    simp only [_put_version_duplicate, hv, eq_self_iff_true, if_true]
    rw [nfind_nset_self]
    simp

/-- In `_put_version_duplicate`, nodes other than the target keep their
NORMAL version untouched. -/
theorem put_version_duplicate_other (t : Tree) (node : Nat)
    (sn : Option Nat) (sz : Option Int) (ty : Option String)
    (hs : Option String) (cks : Option String) (cluster : Nat)
    (icopy av ka : Bool) (m : Nat) (hm : m ≠ node) :
    nfind ((_put_version_duplicate t node sn sz ty hs cks cluster icopy av
        ka).2.2).normal m = nfind t.normal m := by
  simp only [_put_version_duplicate]
  by_cases hc : cluster = 0
  · rw [if_pos hc]
    simp only
    rw [nfind_nset_other _ _ _ _ hm, nfind_recluster_other _ _ _ _ hm]
  · rw [if_neg hc]
    simp only
    rw [nfind_recluster_other _ _ _ _ hm]

theorem map_pair_uuid {o : Option Version} {s : Nat} {u : Nat}
    (h : o.map (fun v' => (v'.serial, v'.uuid)) = some (s, u)) :
    o.map (fun v' => v'.uuid) = some u := by
  rcases o with _ | v'
  · simp at h
  · simp only [Option.map_some'] at h ⊢
    have h2 := Option.some_injective _ h
    rw [Prod.ext_iff] at h2
    simp only at h2
    rw [h2.2]

theorem put_version_duplicate_serial (t : Tree) (node : Nat)
    (sn : Option Nat) (sz : Option Int) (ty : Option String)
    (hs : Option String) (cks : Option String) (cluster : Nat)
    (icopy av ka : Bool) :
    (_put_version_duplicate t node sn sz ty hs cks cluster icopy av
      ka).2.1 = t.nextSerial := rfl

/-- C6.  An object's uuid is preserved by `update_object_meta` and by being
the source of a copy, and is regenerated exactly when a new logical object
comes into being: on an object's first version, and at the destination of a
copy — whose uuid therefore differs from the source's. -/
theorem uuid_lifecycle (t : Tree) (n : Nat) :
    (∀ v, nfind t.normal n = some v →
      (nfind ((update_object_meta_version t n).2.2).normal n).map
        (fun v' => (v'.serial, v'.uuid)) = some (t.nextSerial, v.uuid)) ∧
    (nfind t.normal n = none →
      (nfind ((update_object_meta_version t n).2.2).normal n).map
        (fun v' => v'.uuid) = some t.nextUuid) ∧
    (∀ src dest ty p, src ≠ dest → nfind t.normal src = some p →
      (∀ e ∈ t.normal, e.2.uuid < t.nextUuid) →
      ∃ t', copy_object_version t src dest ty =
          some (t.nextSerial, t') ∧
        nfind t'.normal src = some p ∧
        (nfind t'.normal dest).map (fun v' => v'.uuid) = some t.nextUuid ∧
        (nfind t'.normal dest).map (fun v' => v'.uuid) ≠ some p.uuid) ∧
    (∀ sn sz ty hs cks av ka v, nfind t.normal (sn.getD n) = some v →
      (nfind ((_put_version_duplicate t n sn sz ty hs cks 0 false av
          ka).2.2).normal n).map (fun v' => v'.uuid) = some v.uuid) ∧
    (∀ sn sz ty hs cks av ka,
      (nfind ((_put_version_duplicate t n sn sz ty hs cks 0 true av
          ka).2.2).normal n).map (fun v' => v'.uuid) = some t.nextUuid) := by
  refine ⟨?_, ?_, ?_, ?_, ?_⟩
  · intro v hv
    have h := put_version_duplicate_normal t n none none none none none
      false true true
    simp only [Option.getD_none, hv] at h
    simpa [update_object_meta_version] using h
  · intro hv
    have h := put_version_duplicate_normal t n none none none none none
      false true true
    simp only [Option.getD_none, hv] at h
    exact map_pair_uuid (by simpa [update_object_meta_version] using h)
  · intro src dest ty p hne hsrc hfresh
    have hd : decide (src ≠ dest) = true := decide_eq_true hne
    refine ⟨(_put_version_duplicate t dest (some src) (some p.size)
      (some ty) p.hash none 0 true true false).2.2, ?_, ?_, ?_, ?_⟩
    · simp only [copy_object_version, hsrc, hd,
        put_version_duplicate_serial]
    · rw [put_version_duplicate_other t dest (some src) (some p.size)
        (some ty) p.hash none 0 true true false src hne]
      exact hsrc
    · have h := put_version_duplicate_normal t dest (some src)
        (some p.size) (some ty) p.hash none true true false
      simp only [Option.getD_some, hsrc] at h
      exact map_pair_uuid (by simpa using h)
    · have h := put_version_duplicate_normal t dest (some src)
        (some p.size) (some ty) p.hash none true true false
      simp only [Option.getD_some, hsrc] at h
      have hu := map_pair_uuid (by simpa using h)
      rw [hu]
      have hlt : p.uuid < t.nextUuid := hfresh (src, p) (nfind_mem hsrc)
      intro heq
      have := Option.some_injective _ heq
      omega
  · intro sn sz ty hs cks av ka v hv
    have h := put_version_duplicate_normal t n sn sz ty hs cks false av ka
    rw [hv] at h
    exact map_pair_uuid (by simpa using h)
  · intro sn sz ty hs cks av ka
    have h := put_version_duplicate_normal t n sn sz ty hs cks true av ka
    match hv : nfind t.normal (sn.getD n) with
    | some p =>
      rw [hv] at h
      exact map_pair_uuid (by simpa using h)
    | none =>
      rw [hv] at h
      exact map_pair_uuid (by simpa using h)

/-- The version row of the C6 witness. -/
def cexVersion : Version := ⟨0, 0, none, 0, "", "", true, none⟩

/-- The tree of the C6 witness: one node (1) with one NORMAL version. -/
def cexTree : Tree := ⟨[(1, cexVersion)], [], [], 1, 1⟩

/-- Witness for C6: copying node 1 to node 2 keeps the source row and gives
the destination a fresh uuid different from the source's. -/
theorem uuid_lifecycle_witness :
    ((1 : Nat) ≠ 2 ∧ nfind cexTree.normal 1 = some cexVersion ∧
      (∀ e ∈ cexTree.normal, e.2.uuid < cexTree.nextUuid)) ∧
    ∃ t', copy_object_version cexTree 1 2 "t" =
        some (cexTree.nextSerial, t') ∧
      nfind t'.normal 1 = some cexVersion ∧
      (nfind t'.normal 2).map (fun v' => v'.uuid) =
        some cexTree.nextUuid ∧
      (nfind t'.normal 2).map (fun v' => v'.uuid) ≠
        some cexVersion.uuid :=
  ⟨⟨by decide, by decide, by decide⟩,
    (uuid_lifecycle cexTree 1).2.2.1 1 2 "t" cexVersion
      (by decide) (by decide) (by decide)⟩

end Versions

end Synnefo
